import Mathlib

/-!
Verification development for the alexandria sharded inverted-index engine.

The development shallowly embeds the core data structures and operations of
the repository:

* `indexer::index_builder` (src/indexer/index_builder.h): the shard builder
  with its spill files, merge pass (`read_append_cache`, `read_data_to_cache`,
  `read_page`, `sort_record_list`, `order_sections_by_value`, `save_file`,
  `write_page`), `truncate`, `truncate_cache_files`;
* `FullTextShard` (src/full_text/FullTextShard.cpp): the byte-level shard
  reader with `read_keys` and `find`;
* `algorithm::hyper_ball` (src/algorithm/hyper_ball.h).

Machine integers are modelled as `Nat` (no shard in the claims exercises
64-bit wraparound), C++ `float`/`double` scores as `ℚ`, fallible operations
as `Except`/`Option`.  `std::sort` (which for ties leaves the order
unspecified) is embedded as the deterministic stable `List.insertionSort`.
Configuration constants that live in headers absent from the sources
(`Config::ft_max_results_per_section` = P, `Config::ft_max_sections` = S,
`Config::shard_hash_table_size` = H, `Config::ft_shard_builder_buffer_len`,
`FULL_TEXT_MAX_KEYS`, the reader's `m_buffer_len`) are parameters of the
embedded functions.
-/

/-- Modelled from the spec: the concrete posting-record types
(`domain_record`, `url_record`, `counted_record`) are declared in a header
that is not among the sources.  Per spec §3 every variant exposes `value`,
`score`, total equality by `value`, total order by `value`, and an `+=`
combine operation summing the numeric fields; `counted_record` additionally
carries `count`.  This structure models the `counted_record` shape (the
richest variant); `score` is `ℚ` in place of IEEE float. -/
structure data_record where
  m_value : ℕ
  m_count : ℕ
  m_score : ℚ
deriving DecidableEq

instance : Inhabited data_record := ⟨⟨0, 0, 0⟩⟩

/-- operator== on records: total equality by `value` (spec §3). -/
def rec_eq (a b : data_record) : Prop := a.m_value = b.m_value

/-- operator< / the record total order: by `value` (spec §3); as a `≤`-style
relation for the stable-sort embedding of `std::sort`. -/
def rec_le (a b : data_record) : Prop := a.m_value ≤ b.m_value

/-- operator+= : sums the numeric fields, keeping the left value (spec §3). -/
def rec_add (a b : data_record) : data_record :=
  ⟨a.m_value, a.m_count + b.m_count, a.m_score + b.m_score⟩

/-- the score comparator of `sort_record_list` (`a.m_score > b.m_score`),
as the `≤`-style relation "a may come before b": score descending. -/
def score_ge (a b : data_record) : Prop := b.m_score ≤ a.m_score

instance : DecidableRel rec_le := fun a b => Nat.decLe _ _
instance : DecidableRel score_ge := fun a b => Rat.instDecidableLe _ _
instance : DecidableRel rec_eq := fun a b => Nat.decEq _ _

instance : IsTotal data_record rec_le := ⟨fun a b => Nat.le_total a.m_value b.m_value⟩
instance : IsTrans data_record rec_le := ⟨fun _ _ _ h h' => Nat.le_trans h h'⟩

instance : IsTotal data_record score_ge :=
  ⟨fun a b => by unfold score_ge; exact le_total b.m_score a.m_score⟩

instance : IsTrans data_record score_ge :=
  ⟨fun _ _ _ h h' => by unfold score_ge at *; exact le_trans h' h⟩

/-!  ## HyperLogLog counters, idealized

Modelled from the spec: the `hyper_log_log` / `Algorithm::HyperLogLog`
implementation is not among the sources.  Spec §L1/§Glossary describe it as a
probabilistic cardinality estimator supporting insert, cheap union and a
count.  It is idealized here as an exact set of inserted values, represented
as a duplicate-free list; `count` is the list length. -/

/-- Modelled from the spec: an exact-set idealization of a HyperLogLog
counter (the `hyper_log_log` header is missing from the sources). -/
def hll_insert (h : List ℕ) (v : ℕ) : List ℕ :=
  if v ∈ h then h else h ++ [v]

/-- Modelled from the spec: HLL union (`operator+=` of `hyper_log_log`),
idealized as exact set union. -/
def hll_union (a b : List ℕ) : List ℕ := b.foldl hll_insert a

/-!  ## HyperBall (src/algorithm/hyper_ball.h)

`hyper_ball_worker` computes, for each vertex `v` of its range,
`a[v] = c[v] ∪ ⋃_{w ∈ edge_map[v]} c[w]`, adds
`(|a[v]| − |c[v]|) / (t+1)` to `harmonic[v]`, and then copies `c ← a`.
`hyper_ball` runs rounds `t = 0, 1, …` and breaks after the `t = 40` round
(the loop increments `t` and stops once `t > 40`), so 41 rounds run.
The thread partitioning writes disjoint slices, so the rounds are modelled
as whole-vector updates; `double` is modelled as `ℚ`. -/

/-- one HyperBall round at time `t`: returns the new counters `a` and the
updated harmonic vector. -/
def hyper_ball_round (edge_map : List (List ℕ)) (t : ℕ)
    (c : List (List ℕ)) (harmonic : List ℚ) : List (List ℕ) × List ℚ :=
  let a := (List.range c.length).map (fun v =>
    (edge_map.getD v []).foldl (fun acc w => hll_union acc (c.getD w [])) (c.getD v []))
  let harmonic' := (List.range c.length).map (fun v =>
    harmonic.getD v 0 + (1 / (t + 1 : ℚ)) * ((a.getD v []).length - ((c.getD v []).length : ℚ)))
  (a, harmonic')

/-- the HyperBall round loop: `rounds` rounds starting at time `t`. -/
def hyper_ball_loop (edge_map : List (List ℕ)) :
    ℕ → ℕ → List (List ℕ) → List ℚ → List ℚ
  | 0, _, _, harmonic => harmonic
  | rounds + 1, t, c, harmonic =>
      let p := hyper_ball_round edge_map t c harmonic
      hyper_ball_loop edge_map rounds (t + 1) p.1 p.2

/-- `algorithm::hyper_ball`: counters start as `c[v] = {v}`, harmonic at 0;
rounds `t = 0 … 40` (41 rounds, the source loop breaks once `t > 40`). -/
def hyper_ball (n : ℕ) (edge_map : List (List ℕ)) : List ℚ :=
  hyper_ball_loop edge_map 41 0 ((List.range n).map (fun v => [v])) (List.replicate n 0)

/-- the directed path graph 0→1→2→3 as out-neighbor adjacency lists. -/
def path4_edge_map : List (List ℕ) := [[1], [2], [3], []]

/-!  ## FullTextShard (src/full_text/FullTextShard.cpp)

Byte-level model of the legacy shard reader.  A shard file is
`Option (List ℕ)`: `none` for a missing file, otherwise the byte list
(each entry < 256 in well-formed files; decoding just takes the bytes
as given).  File format (comment at the top of FullTextShard.cpp):
`u64 num_keys`, `num_keys × u64` keys, `num_keys × u64` positions,
`num_keys × u64` lengths, then the data region.

Bytes read past the end of the file land in the reader's stack buffer
uninitialized; the model returns 0 for them (noted: the real value is
unspecified garbage, no claim depends on it). -/

/-- little-endian u64 decode at byte offset `off` (missing bytes read as 0). -/
def decode_u64 (bytes : List ℕ) (off : ℕ) : ℕ :=
  (List.range 8).foldr (fun i acc => acc * 256 + bytes.getD (off + i) 0) 0

/-- little-endian u32 decode at byte offset `off`. -/
def decode_u32 (bytes : List ℕ) (off : ℕ) : ℕ :=
  (List.range 4).foldr (fun i acc => acc * 256 + bytes.getD (off + i) 0) 0

/-- little-endian u64 encode (8 bytes). -/
def encode_u64 (n : ℕ) : List ℕ :=
  (List.range 8).map (fun i => n / 256 ^ i % 256)

/-- little-endian u32 encode (4 bytes). -/
def encode_u32 (n : ℕ) : List ℕ :=
  (List.range 4).map (fun i => n / 256 ^ i % 256)

/-- Modelled from the spec: `FULL_TEXT_RECORD_SIZE` is defined in the
missing FullTextShard.h header; per the spec a full-text record is a u64
value plus a 32-bit score, and `find` reads the score at byte offset
`FULL_TEXT_KEY_LEN` = 8 inside the record, so the record size is 12. -/
def FULL_TEXT_RECORD_SIZE : ℕ := 12

/-- the reader state produced by `FullTextShard::read_keys`. -/
structure ft_keys_state where
  m_keys : List ℕ
  m_pos_start : ℕ
  m_len_start : ℕ
  m_data_start : ℕ
deriving DecidableEq

/-- `FullTextShard::read_keys`: missing file or zero-size file give an empty
key vector (and `m_data_start = 0`); a header with more than
`max_keys` (= `FULL_TEXT_MAX_KEYS`, a constant of the missing header,
here a parameter) keys throws. -/
def ft_read_keys (content : Option (List ℕ)) (max_keys : ℕ) :
    Except Unit ft_keys_state :=
  match content with
  | none => .ok ⟨[], 0, 0, 0⟩
  | some bytes =>
    if bytes.length = 0 then .ok ⟨[], 0, 0, 0⟩
    else
      let num_keys := decode_u64 bytes 0
      if max_keys < num_keys then .error ()
      else
        let keys := (List.range num_keys).map (fun i => decode_u64 bytes (8 + 8 * i))
        let pos_start := 8 + 8 * num_keys
        .ok ⟨keys, pos_start, pos_start + num_keys * 8, pos_start + 2 * (num_keys * 8)⟩

/-- the read loop of `FullTextShard::find`: starting at `read_bytes = rb`,
while `read_bytes < len` it reads `read_len = min m_buffer_len len` bytes
(the source takes `min` with `len`, not with `len − read_bytes`) and parses
`read_len / FULL_TEXT_RECORD_SIZE` records (value u64, score u32 at +8)
from the bytes at `base + read_bytes`.  `fuel` only bounds the iteration
count; `len` iterations always suffice since `read_len ≥ 1` when
`0 < m_buffer_len`. -/
def ft_find_loop (bytes : List ℕ) (buffer_len len base : ℕ) :
    ℕ → ℕ → List (ℕ × ℕ)
  | 0, _ => []
  | fuel + 1, rb =>
    if rb < len then
      let read_len := min buffer_len len
      ((List.range (read_len / FULL_TEXT_RECORD_SIZE)).map (fun i =>
        (decode_u64 bytes (base + rb + i * FULL_TEXT_RECORD_SIZE),
         decode_u32 bytes (base + rb + i * FULL_TEXT_RECORD_SIZE + 8))))
      ++ ft_find_loop bytes buffer_len len base fuel (rb + read_len)
    else []

/-- `FullTextShard::find`: load keys (first call), locate the key with
`lower_bound` (first index whose key is ≥ the probe; the key vector of a
well-formed shard is sorted), return `{}` when absent, else read the
position and length words for that index and run the read loop from
`m_data_start + pos`. -/
def ft_find (content : Option (List ℕ)) (max_keys buffer_len key : ℕ) :
    Except Unit (List (ℕ × ℕ)) :=
  match ft_read_keys content max_keys with
  | .error e => .error e
  | .ok st =>
    let key_pos := st.m_keys.findIdx (fun x => key ≤ x)
    if key_pos = st.m_keys.length ∨ key < st.m_keys.getD key_pos 0 then .ok []
    else
      let bytes := content.getD []
      let pos := decode_u64 bytes (st.m_pos_start + key_pos * 8)
      let len := decode_u64 bytes (st.m_len_start + key_pos * 8)
      .ok (ft_find_loop bytes buffer_len len (st.m_data_start + pos) len 0)

/-!  ## index_builder (src/indexer/index_builder.h)

The builder is generic over `data_record`; the model uses the record type
above.  `m_cache : std::map<uint64_t, vector<data_record>>` is modelled as a
key-sorted association list, `m_total_results : std::map<uint64_t, size_t>`
likewise.  Parameters throughout: `rs` = `sizeof(data_record)`,
`bl` = `m_buffer_len` (`Config::ft_shard_builder_buffer_len`),
`H` = `m_hash_table_size`, `P` = `Config::ft_max_results_per_section`,
`S` = `Config::ft_max_sections`. -/

/-- `m_cache`: key-sorted association list from key to its record vector. -/
abbrev rcache := List (ℕ × List data_record)

/-- `m_total_results`: key-sorted association list from key to a count. -/
abbrev totmap := List (ℕ × ℕ)

/-- `m_cache[key].push_back(record)` on the sorted association list. -/
def cache_push (key : ℕ) (r : data_record) : rcache → rcache
  | [] => [(key, [r])]
  | (k, l) :: rest =>
    if key < k then (key, [r]) :: (k, l) :: rest
    else if key = k then (k, l ++ [r]) :: rest
    else (k, l) :: cache_push key r rest

/-- `m_cache[key]` as read access (`std::map::operator[]` defaults to an
empty vector; the write path only reads keys that are present). -/
def cache_get (c : rcache) (key : ℕ) : List data_record :=
  match c.find? (fun e => e.1 = key) with
  | some e => e.2
  | none => []

/-- `m_total_results[key] = n` on the sorted association list. -/
def tot_set (key n : ℕ) : totmap → totmap
  | [] => [(key, n)]
  | (k, m) :: rest =>
    if key < k then (key, n) :: (k, m) :: rest
    else if key = k then (k, n) :: rest
    else (k, m) :: tot_set key n rest

/-- `m_total_results[key]` as read access (defaults to 0 like
`std::map::operator[]` on an absent key). -/
def tot_get (t : totmap) (key : ℕ) : ℕ :=
  match t.find? (fun e => e.1 = key) with
  | some e => e.2
  | none => 0

/-- the summing loop plus `std::unique` of `index_builder::sort_record_list`
on a value-sorted list: the loop keeps `i` at the head of the current run of
`==`-equal (equal-`value`) records and folds every later member of the run
into it with `+=`; `std::unique` then keeps exactly those run heads.  The
accumulator `acc` is the current run head with the sums applied so far. -/
def coalesce_run (acc : data_record) : List data_record → List data_record
  | [] => [acc]
  | x :: xs =>
    if x.m_value = acc.m_value then coalesce_run (rec_add acc x) xs
    else acc :: coalesce_run x xs

/-- sum-equal-elements plus dedup (`sort_record_list` middle phase). -/
def coalesce : List data_record → List data_record
  | [] => []
  | r :: rest => coalesce_run r rest

/-- `index_builder::order_sections_by_value`: for each section
`0 ≤ section < S` sort the slice `[section*P, section*P + P)` by the record
order (ascending `value`); the final (clamped) partial slice is sorted and
then the loop stops, and anything beyond `S` sections stays untouched. -/
def order_sections_by_value (S P : ℕ) (results : List data_record) : List data_record :=
  match S with
  | 0 => results
  | S' + 1 =>
    if results.length ≤ P then List.insertionSort rec_le results
    else List.insertionSort rec_le (results.take P) ++
      order_sections_by_value S' P (results.drop P)

/-- `index_builder::sort_record_list`: sort by the record order, coalesce
equal values (sum + dedup), record `total_results` = the deduplicated
length; when the length exceeds `P`, re-sort descending by score, cap at
`max_results = P·S`, and value-order each section.  Returns the final
record list and the `total_results` value for the key. -/
def sort_record_list (P S : ℕ) (records : List data_record) :
    List data_record × ℕ :=
  let summed := coalesce (List.insertionSort rec_le records)
  let max_results := P * S
  if P < summed.length then
    let by_score := List.insertionSort score_ge summed
    let capped := if max_results < by_score.length then by_score.take max_results else by_score
    (order_sections_by_value S P capped, summed.length)
  else (summed, summed.length)

/-- `index_builder::sort_cache`: apply `sort_record_list` to every cache
entry in key order, updating `m_total_results` as it goes. -/
def sort_cache (P S : ℕ) : rcache → totmap → rcache × totmap
  | [], t => ([], t)
  | (k, l) :: rest, t =>
    let p := sort_record_list P S l
    let q := sort_cache P S rest (tot_set k p.2 t)
    ((k, p.1) :: q.1, q.2)

/-- one page of the `.data` file (`write_page` layout: `u64 num_keys`, the
key/position/length/total arrays, then the concatenated payloads).  The
payload is kept as a record list; `lens` are byte lengths as written.  A
page of a well-formed file has all four arrays of equal length and
`payload.length * rs = lens.sum`. -/
structure page_t where
  keys : List ℕ
  positions : List ℕ
  lens : List ℕ
  totals : List ℕ
  payload : List data_record
deriving DecidableEq

/-- the `.data` file: its pages in file order. -/
abbrev data_file := List page_t

/-- running positions: `v_pos` of `write_page` (cumulative byte offsets of
the payloads within the page's data block). -/
def running_positions (acc : ℕ) : List ℕ → List ℕ
  | [] => []
  | len :: rest => acc :: running_positions (acc + len) rest

/-- the partition a key belongs to: `key mod H`, or the single partition 0
when `H = 0` (`save_file`). -/
def page_partition (H key : ℕ) : ℕ := if H = 0 then 0 else key % H

/-- the sorted list of partitions that occur in the cache (`pages`, a
`std::map`, iterates in ascending partition order). -/
def cache_partitions (H : ℕ) (c : rcache) : List ℕ :=
  (List.insertionSort (· ≤ ·) (c.map (fun e => page_partition H e.1))).dedup

/-- the keys of one partition, in cache (ascending-key) order. -/
def partition_keys (H : ℕ) (c : rcache) (p : ℕ) : List ℕ :=
  (c.map (fun e => e.1)).filter (fun k => page_partition H k = p)

/-- `index_builder::write_page` for the keys of one partition: lengths are
`m_cache[key].size() * sizeof(data_record)`, positions the running sums,
totals from `m_total_results`, payload the concatenation. -/
def write_page (rs : ℕ) (c : rcache) (t : totmap) (keys : List ℕ) : page_t :=
  let lens := keys.map (fun k => (cache_get c k).length * rs)
  { keys := keys
    positions := running_positions 0 lens
    lens := lens
    totals := keys.map (tot_get t)
    payload := (keys.map (cache_get c)).flatten }

/-- `index_builder::save_file`: partition the cache keys by `key mod H`
(all in partition 0 when `H = 0`) and emit one page per partition in
ascending partition order. -/
def save_file (rs H : ℕ) (c : rcache) (t : totmap) : data_file :=
  (cache_partitions H c).map (fun p => write_page rs c t (partition_keys H c p))

/-- the byte size of a page as written: `8·(1 + 4·num_keys)` header bytes
plus the payload bytes (`Σ lens`, which for a written page equals
`payload.length * rs`). -/
def page_byte_size (pg : page_t) : ℕ :=
  8 * (1 + 4 * pg.keys.length) + pg.lens.sum

/-- byte offsets at which consecutive pages start (`writer.tellp()` at each
`write_page` call). -/
def page_offsets (acc : ℕ) : List page_t → List ℕ
  | [] => []
  | pg :: rest => acc :: page_offsets (acc + page_byte_size pg) rest

/-- the `.keys` directory file: `H` slots, `reset_key_file` fills all with
`SIZE_MAX` (modelled `none`), then `write_key` stores each written page's
byte offset at slot `partition` (the partition index is the page's map key,
asserted `< H`). -/
def save_keys_file (H : ℕ) (c : rcache) (df : data_file) : List (Option ℕ) :=
  let slots := (cache_partitions H c).zip (page_offsets 0 df)
  (List.range H).map (fun p =>
    match slots.find? (fun e => e.1 = p) with
    | some e => some e.2
    | none => none)

/-!  ### The read side of the builder (`read_data_to_cache` / `read_page`)

`read_page` reads the four header arrays, then streams the data region in
chunks of at most `m_buffer_len` bytes and parses `gcount / sizeof(data_record)`
records per chunk, distributing them to the page's keys according to the
declared lengths.  The payload region is modelled as the page's record
list; a read at a byte offset that is a multiple of `rs` and inside the
region yields that record, any other read yields an unspecified record
(modelled as `default` — no claim depends on the bytes of a misaligned
or out-of-range parse). -/

/-- the record parsed from the payload region at byte offset `off`. -/
def payload_record (rs : ℕ) (payload : List data_record) (off : ℕ) : data_record :=
  if off % rs = 0 then payload.getD (off / rs) default else default

/-- the `while (num_records_for_key == 0 && key_id < num_keys)` advance loop
of `read_page`: steps to the next key and loads
`num_records_for_key = lens[key_id] / rs`.  Returns
`(key_id, num_records_for_key, all lens accesses in bounds)`; the source
indexes `lens[key_id]` after the increment, which is out of bounds exactly
when `key_id` reaches `num_keys` — the model reads 0 there and clears the
`ok` flag.  `fuel = num_keys + 1` always suffices (each step increments
`key_id`, and the guard stops at `num_keys`). -/
def advance_key (rs num_keys : ℕ) (lens : List ℕ) :
    ℕ → ℕ → ℕ → ℕ × ℕ × Bool
  | 0, key_id, nrfk => (key_id, nrfk, false)
  | fuel + 1, key_id, nrfk =>
    if nrfk = 0 ∧ key_id < num_keys then
      let key_id' := key_id + 1
      let ok := decide (key_id' < lens.length)
      let p := advance_key rs num_keys lens fuel key_id' (lens.getD key_id' 0 / rs)
      (p.1, p.2.1, ok && p.2.2)
    else (key_id, nrfk, true)

/-- distribution of one parsed record (`read_page` inner `for` body):
advance past exhausted keys, then, if the current key still expects
records, push the record to `m_cache[keys[key_id]]`. -/
def dist_step (rs num_keys : ℕ) (keys lens : List ℕ)
    (st : ℕ × ℕ × Bool × rcache) (r : data_record) : ℕ × ℕ × Bool × rcache :=
  let a := advance_key rs num_keys lens (num_keys + 1) st.1 st.2.1
  let ok := st.2.2.1 && a.2.2
  if 0 < a.2.1 then
    (a.1, a.2.1 - 1, ok, cache_push (keys.getD a.1 0) r st.2.2.2)
  else (a.1, a.2.1, ok, st.2.2.2)

/-- the records parsed from one chunk: the chunk starts at payload byte
offset `pos` and holds `gcount` bytes; `gcount / rs` records are parsed at
offsets `pos + i·rs` of the region. -/
def chunk_records (rs : ℕ) (payload : List data_record) (pos gcount : ℕ) :
    List data_record :=
  (List.range (gcount / rs)).map (fun i => payload_record rs payload (pos + i * rs))

/-- the chunked data loop of `read_page`: while `total_read < data_size`,
request `to_read = min bl (data_size − total_read)` bytes, actually obtain
`gcount = min to_read (payload bytes − total_read)`; a zero `gcount` logs
"Data stopped before end", clears the whole `m_cache` and breaks; otherwise
the chunk's records are distributed.  `fuel = data_size` suffices since
every continuing iteration consumes at least one byte. -/
def read_page_loop (rs bl data_size : ℕ) (keys lens : List ℕ)
    (payload : List data_record) :
    ℕ → ℕ → ℕ × ℕ × Bool × rcache → rcache × Bool
  | 0, _, st => (st.2.2.2, st.2.2.1)
  | fuel + 1, total_read, st =>
    if total_read < data_size then
      let to_read := min bl (data_size - total_read)
      let gcount := min to_read (payload.length * rs - total_read)
      if gcount = 0 then ([], st.2.2.1)
      else
        let st' := (chunk_records rs payload total_read gcount).foldl
          (dist_step rs keys.length keys lens) st
        read_page_loop rs bl data_size keys lens payload fuel (total_read + gcount) st'
    else (st.2.2.2, st.2.2.1)

/-- `index_builder::read_page` on one (already header-parsed) page:
record every key's total in `m_total_results`, and when the declared data
size `Σ lens` is nonzero distribute the data region.  Returns the updated
cache and totals plus the bounds-check flag of every `lens[key_id]` access
(including the initial `lens[0]`). -/
def read_page_model (rs bl : ℕ) (pg : page_t) (c : rcache) (t : totmap) :
    rcache × totmap × Bool :=
  let t' := (pg.keys.zip pg.totals).foldl (fun acc e => tot_set e.1 e.2 acc) t
  let data_size := pg.lens.sum
  if data_size = 0 then (c, t', true)
  else
    let ok0 := decide (0 < pg.lens.length)
    let p := read_page_loop rs bl data_size pg.keys pg.lens pg.payload
      data_size 0 (0, pg.lens.getD 0 0 / rs, ok0, c)
    (p.1, t', p.2)

/-- `index_builder::read_data_to_cache`: clear the cache and totals, then
read pages until end of file (an absent or zero-size `.data` is the empty
page list).  The allocation of `m_buffer` can fail (`alloc_fail`); the
function then returns with the cache still empty. -/
def read_data_to_cache (rs bl : ℕ) (alloc_fail : Bool) (df : data_file) :
    rcache × totmap × Bool :=
  if df ≠ [] ∧ alloc_fail then ([], [], true)
  else
    df.foldl (fun acc pg =>
      let p := read_page_model rs bl pg acc.1 acc.2.1
      (p.1, p.2.1, acc.2.2 && p.2.2)) ([], [], true)

/-- the spill-file read of `read_append_cache`: records and keys are read
in lockstep (the spill files are written in lockstep by `append`, so their
element counts agree) and pushed into `m_cache` in order.  The fixed
100000-element chunking of the source always falls on record boundaries
and so does not affect the result. -/
def read_spill (c : rcache) (ks : List ℕ) (rraw : List data_record) : rcache :=
  (ks.zip rraw).foldl (fun acc e => cache_push e.1 e.2 acc) c

/-!  ### Shard state and the builder operations -/

/-- the five on-disk files of one shard plus the in-memory append vectors.
`meta` is `none` when the `.meta` file is absent, otherwise the stored
`unique_count` and the (idealized) HLL register content.  `keyfile` is the
`.keys` directory, `cache_records`/`cache_keys` the two spill files. -/
structure shard_state where
  data : data_file
  keyfile : List (Option ℕ)
  meta : Option (ℕ × List ℕ)
  cache_records : List data_record
  cache_keys : List ℕ
deriving DecidableEq

/-- the in-memory builder on top of the files: `m_keys` / `m_records`. -/
structure builder_state where
  files : shard_state
  m_keys : List ℕ
  m_records : List data_record
deriving DecidableEq

/-- `index_builder::add`: append to the in-memory vectors. -/
def builder_add (b : builder_state) (key : ℕ) (r : data_record) : builder_state :=
  { b with m_keys := b.m_keys ++ [key], m_records := b.m_records ++ [r] }

/-- `index_builder::append`: flush the in-memory vectors to the spill files
(opened in append mode) and clear them. -/
def builder_append (b : builder_state) : builder_state :=
  { files := { b.files with
      cache_records := b.files.cache_records ++ b.m_records
      cache_keys := b.files.cache_keys ++ b.m_keys }
    m_keys := []
    m_records := [] }

/-- `index_builder::read_append_cache`: clear cache and totals, load the
current `.data` (`read_data_to_cache`), then load the spill files.  Each of
the three buffer allocations can fail (`std::bad_alloc`); the handler logs
and returns from this helper — with the cache in whatever state the earlier
steps left it — and `merge` carries on regardless. -/
def read_append_cache (rs bl : ℕ)
    (alloc_fail_data alloc_fail_spill alloc_fail_spill_keys : Bool)
    (s : shard_state) : rcache × totmap :=
  let d := read_data_to_cache rs bl alloc_fail_data s.data
  if alloc_fail_spill ∨ alloc_fail_spill_keys then (d.1, d.2.1)
  else (read_spill d.1 s.cache_keys s.cache_records, d.2.1)

/-- `count_unique`: insert every cached record's `value` into the HLL. -/
def count_unique (c : rcache) (hll : List ℕ) : List ℕ :=
  c.foldl (fun acc e => e.2.foldl (fun h r => hll_insert h r.m_value) acc) hll

/-- `read_meta`: a present `.meta` file loads the stored HLL registers into
the freshly constructed counter (replacing its empty registers); an absent
file leaves the counter fresh. -/
def read_meta (s : shard_state) : List ℕ :=
  match s.meta with
  | none => []
  | some m => m.2

/-- `index_builder::merge`: fresh HLL; `read_append_cache`; `read_meta`;
`count_unique`; `sort_cache`; `save_file` (plus the `.keys` directory when
`use_key_file()`, i.e. `H > 0`); `save_meta` (truncate-writes
`unique_count` and the registers); `truncate_cache_files` (empties both
spill files).  The three `alloc_fail_*` flags inject `std::bad_alloc` into
the corresponding buffer allocation of the cache-load phase. -/
def merge (rs bl H P S : ℕ)
    (alloc_fail_data alloc_fail_spill alloc_fail_spill_keys : Bool)
    (s : shard_state) : shard_state :=
  let loaded := read_append_cache rs bl alloc_fail_data alloc_fail_spill
    alloc_fail_spill_keys s
  let hll := count_unique loaded.1 (read_meta s)
  let sorted := sort_cache P S loaded.1 loaded.2
  let df := save_file rs H sorted.1 sorted.2
  { data := df
    keyfile := if 0 < H then save_keys_file H sorted.1 df else s.keyfile
    meta := some (hll.length, hll)
    cache_records := []
    cache_keys := [] }

/-- `index_builder::truncate_cache_files`: truncate-open both spill files
(emptying them); the in-memory `m_cache` is also cleared, which has no
effect on the files. -/
def truncate_cache_files (s : shard_state) : shard_state :=
  { s with cache_records := [], cache_keys := [] }

/-- `index_builder::truncate`: `create_directories`, `truncate_cache_files`,
then truncate-open the `.data` target file.  Neither the `.meta` file nor
the `.keys` directory is touched. -/
def truncate_shard (s : shard_state) : shard_state :=
  { truncate_cache_files s with data := [] }

/-- Modelled from the spec: the reader paired with `index_builder`'s file
format is not among the sources (only the older `FullTextShard` reader is).
Spec §4.4: `find(key)` locates the page holding the key, seeks to
`data_start + offset[key]` and reads `length[key]` bytes of payload.  On
the page model this is the payload slice at the key's declared position
and length; a key on no page yields the empty list. -/
def stored_postings (rs : ℕ) (df : data_file) (key : ℕ) : List data_record :=
  match df.find? (fun pg => pg.keys.contains key) with
  | none => []
  | some pg =>
    let i := pg.keys.indexOf key
    ((pg.payload.drop (pg.positions.getD i 0 / rs)).take (pg.lens.getD i 0 / rs))

/-- the `total_results` word stored for a key in the `.data` file (spec
§3: the per-key `total-results-count` array of the page). -/
def stored_total (df : data_file) (key : ℕ) : ℕ :=
  match df.find? (fun pg => pg.keys.contains key) with
  | none => 0
  | some pg => pg.totals.getD (pg.keys.indexOf key) 0

/-- the stable counter state of HyperBall on the path graph 0→1→2→3:
each vertex's counter holds exactly the vertices reachable from it. -/
def hb_cfinal : List (List ℕ) := [[0,1,2,3],[1,2,3],[2,3],[3]]

/-- a record of the legacy shard byte format: u64 value, u32 score. -/
def ft_record_bytes (value score : ℕ) : List ℕ := encode_u64 value ++ encode_u32 score

/-- a concrete two-key shard file for the reader: keys 5 and 9, key 5 with
36 bytes (3 records) of payload at position 0, key 9 with 12 bytes
(1 record, value 99) at position 36. -/
def ft_two_key_file : List ℕ :=
  encode_u64 2 ++ encode_u64 5 ++ encode_u64 9 ++ encode_u64 0 ++ encode_u64 36
    ++ encode_u64 36 ++ encode_u64 12
    ++ ft_record_bytes 11 1 ++ ft_record_bytes 12 1 ++ ft_record_bytes 13 1
    ++ ft_record_bytes 99 7

/-- well-formedness of the modelled `std::map`s: the key list is strictly
sorted (as a `std::map` iterates keys in strictly increasing order). -/
def cache_wf (c : rcache) : Prop := (c.map Prod.fst).Sorted (· < ·)

/-- well-formedness of the modelled `m_total_results` map: strictly sorted
key list. -/
def tot_wf (t : totmap) : Prop := (t.map Prod.fst).Sorted (· < ·)

/-- strict value order on records (distinct-value lists are sorted by
`rec_le` exactly when they are sorted by this). -/
def rec_lt (a b : data_record) : Prop := a.m_value < b.m_value

/-- the order realized by a stable score-descending sort of a value-sorted
list: strictly higher score first, ties broken by strictly smaller value. -/
def lex_lt (a b : data_record) : Prop :=
  b.m_score ≤ a.m_score ∧ (a.m_score ≤ b.m_score → a.m_value < b.m_value)

/-- a fold of `cache_push` over a list of (key, record) pairs: the common
shape of the spill read and of `read_page`'s record distribution. -/
def push_all (l : List (ℕ × data_record)) (c : rcache) : rcache :=
  l.foldl (fun acc e => cache_push e.1 e.2 acc) c

/-- every cached posting list is nonempty (`m_cache` entries are only ever
created by pushing a record). -/
def cache_nonnil (c : rcache) : Prop := ∀ e ∈ c, e.2 ≠ []

/-- a shard whose spill holds two records of key 7 with distinct values:
with `P = S = 1` the first merge truncates key 7's list to one record while
storing `total_results = 2`, so the second merge writes a different page. -/
def c3_s0 : shard_state :=
  { data := []
    keyfile := []
    meta := none
    cache_records := [⟨1, 1, 2⟩, ⟨2, 1, 1⟩]
    cache_keys := [7, 7] }

/-!  ## Theorems -/

theorem map_getD_range (l : List ℚ) :
    (List.range l.length).map (fun v => l.getD v 0) = l := by
  induction l with
  | nil => simp
  | cons x xs ih =>
    simp only [List.length_cons, List.range_succ_eq_map, List.map_cons, List.map_map]
    refine congrArg₂ _ rfl ?_
    refine (List.map_congr_left ?_).trans ih
    intro a _
    rfl

theorem hb_stable_round (t : ℕ) (h : List ℚ) (hl : h.length = 4) :
    hyper_ball_round path4_edge_map t hb_cfinal h = (hb_cfinal, h) := by
  have ha : (List.range hb_cfinal.length).map (fun v =>
      (path4_edge_map.getD v []).foldl
        (fun acc w => hll_union acc (hb_cfinal.getD w [])) (hb_cfinal.getD v [])) = hb_cfinal := by
    decide
  simp only [hyper_ball_round, ha]
  refine Prod.ext rfl ?_
  simp only [sub_self, mul_zero, add_zero]
  rw [show hb_cfinal.length = h.length by rw [hl]; rfl]
  exact map_getD_range h

theorem hb_stable_loop (n : ℕ) : ∀ (t : ℕ) (h : List ℚ), h.length = 4 →
    hyper_ball_loop path4_edge_map n t hb_cfinal h = h := by
  induction n with
  | zero => intro t h _; rfl
  | succ n ih =>
    intro t h hl
    show hyper_ball_loop path4_edge_map n (t+1)
      (hyper_ball_round path4_edge_map t hb_cfinal h).1
      (hyper_ball_round path4_edge_map t hb_cfinal h).2 = h
    rw [hb_stable_round t h hl]
    exact ih (t+1) h hl

theorem hb_round0 :
    hyper_ball_round path4_edge_map 0 [[0],[1],[2],[3]] [0,0,0,0]
      = ([[0,1],[1,2],[2,3],[3]], [1,1,1,0]) := by
  have ha : (List.range ([[0],[1],[2],[3]] : List (List ℕ)).length).map (fun v =>
      (path4_edge_map.getD v []).foldl
        (fun acc w => hll_union acc (([[0],[1],[2],[3]] : List (List ℕ)).getD w []))
        (([[0],[1],[2],[3]] : List (List ℕ)).getD v [])) = [[0,1],[1,2],[2,3],[3]] := by
    decide
  simp only [hyper_ball_round, ha, Prod.mk.injEq]
  refine ⟨trivial, ?_⟩
  norm_num [List.range_succ, List.getD]

theorem hb_round1 :
    hyper_ball_round path4_edge_map 1 [[0,1],[1,2],[2,3],[3]] [1,1,1,0]
      = ([[0,1,2],[1,2,3],[2,3],[3]], [3/2,3/2,1,0]) := by
  have ha : (List.range ([[0,1],[1,2],[2,3],[3]] : List (List ℕ)).length).map (fun v =>
      (path4_edge_map.getD v []).foldl
        (fun acc w => hll_union acc (([[0,1],[1,2],[2,3],[3]] : List (List ℕ)).getD w []))
        (([[0,1],[1,2],[2,3],[3]] : List (List ℕ)).getD v [])) = [[0,1,2],[1,2,3],[2,3],[3]] := by
    decide
  simp only [hyper_ball_round, ha, Prod.mk.injEq]
  refine ⟨trivial, ?_⟩
  norm_num [List.range_succ, List.getD]

theorem hb_round2 :
    hyper_ball_round path4_edge_map 2 [[0,1,2],[1,2,3],[2,3],[3]] [3/2,3/2,1,0]
      = (hb_cfinal, [11/6,3/2,1,0]) := by
  have ha : (List.range ([[0,1,2],[1,2,3],[2,3],[3]] : List (List ℕ)).length).map (fun v =>
      (path4_edge_map.getD v []).foldl
        (fun acc w => hll_union acc (([[0,1,2],[1,2,3],[2,3],[3]] : List (List ℕ)).getD w []))
        (([[0,1,2],[1,2,3],[2,3],[3]] : List (List ℕ)).getD v [])) = hb_cfinal := by
    decide
  simp only [hyper_ball_round, ha, Prod.mk.injEq]
  refine ⟨trivial, ?_⟩
  norm_num [List.range_succ, List.getD, hb_cfinal]

theorem hyper_ball_loop_step (em : List (List ℕ)) (n t : ℕ)
    (c : List (List ℕ)) (h : List ℚ) :
    hyper_ball_loop em (n+1) t c h = hyper_ball_loop em n (t+1)
      (hyper_ball_round em t c h).1 (hyper_ball_round em t c h).2 := rfl

theorem hyper_ball_path4_eval :
    hyper_ball 4 path4_edge_map = [11/6, 3/2, 1, 0] := by
  have s1 : hyper_ball 4 path4_edge_map
      = hyper_ball_loop path4_edge_map 40 1 [[0,1],[1,2],[2,3],[3]] [1,1,1,0] := by
    rw [show hyper_ball 4 path4_edge_map
        = hyper_ball_loop path4_edge_map (40+1) 0 [[0],[1],[2],[3]] [0,0,0,0] from rfl,
      hyper_ball_loop_step, hb_round0]
  have s2 : hyper_ball_loop path4_edge_map 40 1 [[0,1],[1,2],[2,3],[3]] [1,1,1,0]
      = hyper_ball_loop path4_edge_map 39 2 [[0,1,2],[1,2,3],[2,3],[3]] [3/2,3/2,1,0] := by
    rw [show (40:ℕ) = 39+1 from rfl, hyper_ball_loop_step, hb_round1]
  have s3 : hyper_ball_loop path4_edge_map 39 2 [[0,1,2],[1,2,3],[2,3],[3]] [3/2,3/2,1,0]
      = hyper_ball_loop path4_edge_map 38 3 hb_cfinal [11/6,3/2,1,0] := by
    rw [show (39:ℕ) = 38+1 from rfl, hyper_ball_loop_step, hb_round2]
  rw [s1, s2, s3]
  exact hb_stable_loop 38 3 [11/6,3/2,1,0] rfl

/-- C9, counterexample: on the directed path 0→1→2→3 (out-neighbor
adjacency lists, exact-cardinality idealization of the HLL counters),
`hyper_ball` does NOT satisfy `harmonic[0] < harmonic[1]`, and
`harmonic[1] ≠ harmonic[2]`: the computed values are `[11/6, 3/2, 1, 0]`,
so the claimed ordering `harmonic[0] < harmonic[1] ≈ harmonic[2] <
harmonic[3]` fails on its first and second comparisons. -/
theorem C9_hyper_ball_path4_counterexample :
    ¬ ((hyper_ball 4 path4_edge_map).getD 0 0 < (hyper_ball 4 path4_edge_map).getD 1 0)
    ∧ (hyper_ball 4 path4_edge_map).getD 1 0 ≠ (hyper_ball 4 path4_edge_map).getD 2 0 := by
  rw [hyper_ball_path4_eval]
  norm_num [List.getD]

/-- C9, amended: for the directed path graph 0→1→2→3 given to `hyper_ball`
as out-neighbor adjacency lists, the returned harmonic-centrality vector
(under the exact-cardinality idealization of the HLL counters) is
`[11/6, 3/2, 1, 0]`: strictly decreasing along the path,
`harmonic[3] < harmonic[2] < harmonic[1] < harmonic[0]`, with each round
updating `harmonic[v]` by `(|a[v]| − |c[v]|)/(t+1)` where `a[v]` is the
union of `c[v]` and the counters of `v`'s adjacency list. -/
theorem C9_hyper_ball_path4 :
    hyper_ball 4 path4_edge_map = [11/6, 3/2, 1, 0]
    ∧ (hyper_ball 4 path4_edge_map).getD 3 0 < (hyper_ball 4 path4_edge_map).getD 2 0
    ∧ (hyper_ball 4 path4_edge_map).getD 2 0 < (hyper_ball 4 path4_edge_map).getD 1 0
    ∧ (hyper_ball 4 path4_edge_map).getD 1 0 < (hyper_ball 4 path4_edge_map).getD 0 0 := by
  refine ⟨hyper_ball_path4_eval, ?_⟩
  rw [hyper_ball_path4_eval]
  norm_num [List.getD]

/-- C2: `FullTextShard::find` caps each chunk with `min(m_buffer_len, len)`
instead of `min(m_buffer_len, len - read_bytes)`.  On a shard whose key 5
declares `length = 36` bytes (3 records) with `m_buffer_len = 24`, the
second loop iteration again reads 24 bytes instead of the remaining 12, so
`find(5)` reads 48 bytes and returns 4 records — the fourth being the
record of the following key 9 — instead of `length/record_size = 3`
records of key 5 only. -/
theorem C2_find_overread :
    ft_find (some ft_two_key_file) 1000 24 5
      = .ok [(11,1),(12,1),(13,1),(99,7)]
    ∧ 36 / FULL_TEXT_RECORD_SIZE = 3 := by
  constructor
  · rfl
  · rfl

/-- helper: under the num_keys bound, `ft_read_keys` succeeds. -/
theorem ft_read_keys_ok (content : Option (List ℕ)) (mk : ℕ)
    (hbound : ∀ bytes, content = some bytes → decode_u64 bytes 0 ≤ mk) :
    ∃ st, ft_read_keys content mk = .ok st := by
  cases content with
  | none => exact ⟨_, rfl⟩
  | some bytes =>
    simp only [ft_read_keys]
    by_cases h0 : bytes.length = 0
    · rw [if_pos h0]; exact ⟨_, rfl⟩
    · rw [if_neg h0, if_neg (by simpa using hbound bytes rfl)]
      exact ⟨_, rfl⟩

/-- helper: `ft_find` unfolded once `read_keys` has succeeded. -/
theorem ft_find_of_read_keys (content : Option (List ℕ)) (mk bl key : ℕ)
    (st : ft_keys_state) (hst : ft_read_keys content mk = .ok st) :
    ft_find content mk bl key =
      if st.m_keys.findIdx (fun x => key ≤ x) = st.m_keys.length
          ∨ key < st.m_keys.getD (st.m_keys.findIdx (fun x => key ≤ x)) 0 then .ok []
      else .ok (ft_find_loop (content.getD []) bl
          (decode_u64 (content.getD [])
            (st.m_len_start + st.m_keys.findIdx (fun x => key ≤ x) * 8))
          (st.m_data_start + decode_u64 (content.getD [])
            (st.m_pos_start + st.m_keys.findIdx (fun x => key ≤ x) * 8))
          (decode_u64 (content.getD [])
            (st.m_len_start + st.m_keys.findIdx (fun x => key ≤ x) * 8)) 0) := by
  unfold ft_find
  rw [hst]

/-- C4, amended: `FullTextShard::find` never raises provided the file's
declared `num_keys` does not exceed `FULL_TEXT_MAX_KEYS` (parameter `mk`):
a missing file, a zero-size file, and a key not present in the key vector
all yield the empty result list, and under the `num_keys` bound every file
content yields a result rather than an exception.  (A file whose header
exceeds the bound makes `read_keys` — called by the first `find` — throw;
see the counterexample.) -/
theorem C4_find_no_throw (content : Option (List ℕ)) (mk bl key : ℕ)
    (hbound : ∀ bytes, content = some bytes → decode_u64 bytes 0 ≤ mk) :
    (∃ l, ft_find content mk bl key = .ok l)
    ∧ (content = none → ft_find content mk bl key = .ok [])
    ∧ (content = some [] → ft_find content mk bl key = .ok [])
    ∧ (∀ st, ft_read_keys content mk = .ok st → key ∉ st.m_keys →
        ft_find content mk bl key = .ok []) := by
  obtain ⟨st, hst⟩ := ft_read_keys_ok content mk hbound
  refine ⟨?_, ?_, ?_, ?_⟩
  · rw [ft_find_of_read_keys content mk bl key st hst]
    by_cases h : st.m_keys.findIdx (fun x => key ≤ x) = st.m_keys.length
        ∨ key < st.m_keys.getD (st.m_keys.findIdx (fun x => key ≤ x)) 0
    · exact ⟨[], by rw [if_pos h]⟩
    · exact ⟨_, by rw [if_neg h]⟩
  · rintro rfl
    rfl
  · rintro rfl
    rfl
  · intro st' hst' hkey
    rw [hst] at hst'
    obtain rfl : st = st' := by injection hst'
    rw [ft_find_of_read_keys content mk bl key st hst]
    have hcond : st.m_keys.findIdx (fun x => key ≤ x) = st.m_keys.length
        ∨ key < st.m_keys.getD (st.m_keys.findIdx (fun x => key ≤ x)) 0 := by
      by_cases hlen : st.m_keys.findIdx (fun x => key ≤ x) = st.m_keys.length
      · exact Or.inl hlen
      · right
        have hlt : st.m_keys.findIdx (fun x => key ≤ x) < st.m_keys.length :=
          lt_of_le_of_ne (List.findIdx_le_length _) hlen
        have hp := List.findIdx_getElem (w := hlt)
        simp only [decide_eq_true_eq] at hp
        have hne : st.m_keys[st.m_keys.findIdx (fun x => key ≤ x)] ≠ key := by
          intro he
          exact hkey (he ▸ List.getElem_mem hlt)
        rw [List.getD_eq_getElem _ _ hlt]
        omega
    rw [if_pos hcond]

/-- C4, witness for the amended theorem at a concrete shard: a one-key file
whose header declares 1 key, within the bound 1000. -/
theorem C4_find_no_throw_witness :
    (∃ l, ft_find (some (encode_u64 1)) 1000 24 5 = .ok l)
    ∧ (some (encode_u64 1) = none → ft_find (some (encode_u64 1)) 1000 24 5 = .ok [])
    ∧ (some (encode_u64 1) = some [] → ft_find (some (encode_u64 1)) 1000 24 5 = .ok [])
    ∧ (∀ st, ft_read_keys (some (encode_u64 1)) 1000 = .ok st → 5 ∉ st.m_keys →
        ft_find (some (encode_u64 1)) 1000 24 5 = .ok []) :=
  C4_find_no_throw (some (encode_u64 1)) 1000 24 5
    (fun bytes h => by injection h with h'; rw [← h']; decide)

/-- C4, counterexample: a shard file whose 8-byte header declares 1001 keys
makes `find` throw when `FULL_TEXT_MAX_KEYS` is 1000 — so it is not the
case that no file content causes `find` to raise. -/
theorem C4_find_throws_counterexample :
    ft_find (some (encode_u64 1001)) 1000 24 7 = .error () := rfl

/-- C1: allocation failure while loading the spill cache does NOT abort the
merge without mutating state.  On a shard with empty `.data` and a nonempty
spill (one record for key 7), a `std::bad_alloc` in `read_append_cache`'s
spill-buffer allocation makes the helper return early, but `merge` carries
on: it rewrites `.data` from the partially-loaded (here empty) cache,
truncate-writes `.meta`, and `truncate_cache_files` empties both spill
files — the spilled record is lost. -/
theorem C1_merge_alloc_failure_mutates :
    merge 12 24 0 2 2 false true false
      { data := [], keyfile := [], meta := none,
        cache_records := [⟨3, 1, 2⟩], cache_keys := [7] }
      = { data := [], keyfile := [], meta := some (0, []),
          cache_records := [], cache_keys := [] }
    ∧ ([(⟨3, 1, 2⟩ : data_record)] : List data_record) ≠ [] := by
  refine ⟨rfl, ?_⟩
  simp

/-- C5, counterexample: `index_builder::truncate` does not delete the
`.meta` file: on a shard whose meta file holds `unique_count = 1` and one
HLL value, the meta file is unchanged (not emptied) after `truncate`. -/
theorem C5_truncate_keeps_meta_counterexample :
    (truncate_shard
      { data := [⟨[7], [0], [12], [1], [⟨3, 1, 2⟩]⟩], keyfile := [],
        meta := some (1, [3]), cache_records := [⟨3, 1, 2⟩], cache_keys := [7] }).meta
      = some (1, [3]) := rfl

/-- C5, amended: after `index_builder::truncate` the `.data` file and both
spill files (`.cache`, `.cache.keys`) are emptied, for every prior shard
state; the `.meta` file (and the `.keys` directory) are left untouched. -/
theorem C5_truncate (s : shard_state) :
    (truncate_shard s).data = []
    ∧ (truncate_shard s).cache_records = []
    ∧ (truncate_shard s).cache_keys = []
    ∧ (truncate_shard s).meta = s.meta
    ∧ (truncate_shard s).keyfile = s.keyfile :=
  ⟨rfl, rfl, rfl, rfl, rfl⟩

theorem cache_push_mem_fst (key k' : ℕ) (r : data_record) (c : rcache) :
    k' ∈ (cache_push key r c).map Prod.fst ↔ k' = key ∨ k' ∈ c.map Prod.fst := by
  induction c with
  | nil => simp [cache_push]
  | cons e rest ih =>
    obtain ⟨k, l⟩ := e
    simp only [cache_push]
    split_ifs with h1 h2
    · simp only [List.map_cons, List.mem_cons]
    · subst h2
      simp only [List.map_cons, List.mem_cons]
      tauto
    · simp only [List.map_cons, List.mem_cons, ih]
      tauto

theorem cache_push_wf (key : ℕ) (r : data_record) (c : rcache) (h : cache_wf c) :
    cache_wf (cache_push key r c) := by
  induction c with
  | nil => simp [cache_push, cache_wf]
  | cons e rest ih =>
    obtain ⟨k, l⟩ := e
    unfold cache_wf at *
    simp only [cache_push]
    split_ifs with h1 h2
    · simp only [List.map_cons, List.sorted_cons] at h ⊢
      refine ⟨?_, h⟩
      intro b hb
      simp only [List.mem_cons] at hb
      rcases hb with rfl | hb
      · exact h1
      · exact lt_trans h1 (h.1 b hb)
    · subst h2
      simpa using h
    · simp only [List.map_cons, List.sorted_cons] at h ⊢
      refine ⟨?_, ih h.2⟩
      intro b hb
      rw [List.mem_map] at hb
      obtain ⟨e, he, rfl⟩ := hb
      have := (cache_push_mem_fst key e.1 r rest).mp (List.mem_map_of_mem _ he)
      rcases this with he1 | hmem
      · rw [he1]; omega
      · exact h.1 _ hmem

theorem cache_get_cons (k : ℕ) (l : List data_record) (rest : rcache) (key : ℕ) :
    cache_get ((k, l) :: rest) key = if k = key then l else cache_get rest key := by
  by_cases h : k = key <;> simp [cache_get, List.find?, h]

theorem cache_get_not_mem (c : rcache) (key : ℕ)
    (h : key ∉ c.map Prod.fst) : cache_get c key = [] := by
  induction c with
  | nil => rfl
  | cons e rest ih =>
    obtain ⟨k, l⟩ := e
    simp only [List.map_cons, List.mem_cons, not_or] at h
    rw [cache_get_cons, if_neg (fun he => h.1 he.symm)]
    exact ih h.2

theorem cache_get_push_self (key : ℕ) (r : data_record) (c : rcache)
    (hwf : cache_wf c) :
    cache_get (cache_push key r c) key = cache_get c key ++ [r] := by
  induction c with
  | nil => simp [cache_push, cache_get, List.find?]
  | cons e rest ih =>
    obtain ⟨k, l⟩ := e
    unfold cache_wf at hwf
    simp only [List.map_cons, List.sorted_cons] at hwf
    simp only [cache_push]
    split_ifs with h1 h2
    · have hrest : key ∉ rest.map Prod.fst := by
        intro hm
        exact absurd (hwf.1 key hm) (by omega)
      rw [cache_get_cons, if_pos rfl, cache_get_cons, if_neg (by omega),
        cache_get_not_mem rest key hrest]
      rfl
    · subst h2
      rw [cache_get_cons, if_pos rfl, cache_get_cons, if_pos rfl]
    · rw [cache_get_cons, if_neg (by omega), cache_get_cons, if_neg (by omega)]
      exact ih hwf.2

theorem cache_get_push_other (key k' : ℕ) (r : data_record) (c : rcache)
    (h : k' ≠ key) : cache_get (cache_push key r c) k' = cache_get c k' := by
  induction c with
  | nil => simp [cache_push, cache_get, List.find?, Ne.symm h]
  | cons e rest ih =>
    obtain ⟨k, l⟩ := e
    simp only [cache_push]
    split_ifs with h1 h2
    · rw [cache_get_cons, if_neg (Ne.symm h), cache_get_cons]
    · subst h2
      rw [cache_get_cons, cache_get_cons]
      split_ifs with hk
      · exact absurd hk.symm h
      · rfl
    · rw [cache_get_cons, cache_get_cons]
      split_ifs with hk
      · rfl
      · exact ih

theorem tot_get_cons (k n : ℕ) (rest : totmap) (key : ℕ) :
    tot_get ((k, n) :: rest) key = if k = key then n else tot_get rest key := by
  by_cases h : k = key <;> simp [tot_get, List.find?, h]

theorem tot_set_mem_fst (key n k' : ℕ) (t : totmap) :
    k' ∈ (tot_set key n t).map Prod.fst ↔ k' = key ∨ k' ∈ t.map Prod.fst := by
  induction t with
  | nil => simp [tot_set]
  | cons e rest ih =>
    obtain ⟨k, m⟩ := e
    simp only [tot_set]
    split_ifs with h1 h2
    · simp only [List.map_cons, List.mem_cons]
    · subst h2
      simp only [List.map_cons, List.mem_cons]
      tauto
    · simp only [List.map_cons, List.mem_cons, ih]
      tauto

theorem tot_set_wf (key n : ℕ) (t : totmap) (h : tot_wf t) :
    tot_wf (tot_set key n t) := by
  induction t with
  | nil => simp [tot_set, tot_wf]
  | cons e rest ih =>
    obtain ⟨k, m⟩ := e
    unfold tot_wf at *
    simp only [tot_set]
    split_ifs with h1 h2
    · simp only [List.map_cons, List.sorted_cons] at h ⊢
      refine ⟨?_, h⟩
      intro b hb
      simp only [List.mem_cons] at hb
      rcases hb with rfl | hb
      · exact h1
      · exact lt_trans h1 (h.1 b hb)
    · subst h2
      simpa using h
    · simp only [List.map_cons, List.sorted_cons] at h ⊢
      refine ⟨?_, ih h.2⟩
      intro b hb
      rw [List.mem_map] at hb
      obtain ⟨e, he, rfl⟩ := hb
      have := (tot_set_mem_fst key n e.1 rest).mp (List.mem_map_of_mem _ he)
      rcases this with he1 | hmem
      · rw [he1]; omega
      · exact h.1 _ hmem

theorem tot_get_not_mem (t : totmap) (key : ℕ)
    (h : key ∉ t.map Prod.fst) : tot_get t key = 0 := by
  induction t with
  | nil => rfl
  | cons e rest ih =>
    obtain ⟨k, m⟩ := e
    simp only [List.map_cons, List.mem_cons, not_or] at h
    rw [tot_get_cons, if_neg (fun he => h.1 he.symm)]
    exact ih h.2

theorem tot_get_set_self (key n : ℕ) (t : totmap) :
    tot_get (tot_set key n t) key = n := by
  induction t with
  | nil => simp [tot_set, tot_get, List.find?]
  | cons e rest ih =>
    obtain ⟨k, m⟩ := e
    simp only [tot_set]
    split_ifs with h1 h2
    · rw [tot_get_cons, if_pos rfl]
    · subst h2
      rw [tot_get_cons, if_pos rfl]
    · rw [tot_get_cons, if_neg (by omega)]
      exact ih

theorem tot_get_set_other (key n k' : ℕ) (t : totmap) (h : k' ≠ key) :
    tot_get (tot_set key n t) k' = tot_get t k' := by
  induction t with
  | nil => simp [tot_set, tot_get, List.find?, Ne.symm h]
  | cons e rest ih =>
    obtain ⟨k, m⟩ := e
    simp only [tot_set]
    split_ifs with h1 h2
    · rw [tot_get_cons, if_neg (Ne.symm h), tot_get_cons]
    · subst h2
      rw [tot_get_cons, tot_get_cons]
      split_ifs with hk
      · exact absurd hk.symm h
      · rfl
    · rw [tot_get_cons, tot_get_cons]
      split_ifs with hk
      · rfl
      · exact ih

theorem cache_push_foldl_wf (l : List (ℕ × data_record)) (c : rcache)
    (h : cache_wf c) :
    cache_wf (l.foldl (fun acc e => cache_push e.1 e.2 acc) c) := by
  induction l generalizing c with
  | nil => exact h
  | cons e rest ih => exact ih _ (cache_push_wf _ _ _ h)

theorem read_spill_wf (c : rcache) (ks : List ℕ) (rraw : List data_record)
    (h : cache_wf c) : cache_wf (read_spill c ks rraw) :=
  cache_push_foldl_wf _ _ h

theorem dist_step_wf (rs num_keys : ℕ) (keys lens : List ℕ)
    (st : ℕ × ℕ × Bool × rcache) (r : data_record) (h : cache_wf st.2.2.2) :
    cache_wf (dist_step rs num_keys keys lens st r).2.2.2 := by
  unfold dist_step
  dsimp only
  split_ifs
  · exact cache_push_wf _ _ _ h
  · exact h

theorem dist_fold_wf (rs num_keys : ℕ) (keys lens : List ℕ)
    (rl : List data_record) (st : ℕ × ℕ × Bool × rcache) (h : cache_wf st.2.2.2) :
    cache_wf ((rl.foldl (dist_step rs num_keys keys lens) st)).2.2.2 := by
  induction rl generalizing st with
  | nil => exact h
  | cons r rest ih => exact ih _ (dist_step_wf _ _ _ _ _ _ h)

theorem read_page_loop_wf (rs bl data_size : ℕ) (keys lens : List ℕ)
    (payload : List data_record) (fuel : ℕ) :
    ∀ (total_read : ℕ) (st : ℕ × ℕ × Bool × rcache), cache_wf st.2.2.2 →
    cache_wf (read_page_loop rs bl data_size keys lens payload fuel total_read st).1 := by
  induction fuel with
  | zero => intro _ st h; exact h
  | succ fuel ih =>
    intro total_read st h
    unfold read_page_loop
    dsimp only
    split_ifs
    · simp [cache_wf]
    · exact ih _ _ (dist_fold_wf _ _ _ _ _ _ h)
    · exact h

theorem read_page_model_wf (rs bl : ℕ) (pg : page_t) (c : rcache) (t : totmap)
    (h : cache_wf c) : cache_wf (read_page_model rs bl pg c t).1 := by
  unfold read_page_model
  dsimp only
  split_ifs
  · exact h
  · exact read_page_loop_wf _ _ _ _ _ _ _ _ _ h

theorem read_pages_fold_wf (rs bl : ℕ) (df : data_file) :
    ∀ (acc : rcache × totmap × Bool), cache_wf acc.1 →
    cache_wf (df.foldl (fun acc pg =>
      let p := read_page_model rs bl pg acc.1 acc.2.1
      (p.1, p.2.1, acc.2.2 && p.2.2)) acc).1 := by
  induction df with
  | nil => intro acc h; exact h
  | cons pg rest ih =>
    intro acc h
    rw [List.foldl_cons]
    exact ih (let p := read_page_model rs bl pg acc.1 acc.2.1;
        (p.1, p.2.1, acc.2.2 && p.2.2))
      (read_page_model_wf _ _ _ _ _ h)

theorem read_data_to_cache_wf (rs bl : ℕ) (alloc_fail : Bool) (df : data_file) :
    cache_wf (read_data_to_cache rs bl alloc_fail df).1 := by
  unfold read_data_to_cache
  split_ifs
  · simp [cache_wf]
  · exact read_pages_fold_wf rs bl df ([], [], true) (by simp [cache_wf])

theorem read_append_cache_wf (rs bl : ℕ) (f1 f2 f3 : Bool) (s : shard_state) :
    cache_wf (read_append_cache rs bl f1 f2 f3 s).1 := by
  unfold read_append_cache
  split_ifs
  · exact read_data_to_cache_wf _ _ _ _
  · exact read_spill_wf _ _ _ (read_data_to_cache_wf _ _ _ _)

theorem sort_cache_map_fst (P S : ℕ) (c : rcache) (t : totmap) :
    (sort_cache P S c t).1.map Prod.fst = c.map Prod.fst := by
  induction c generalizing t with
  | nil => rfl
  | cons e rest ih =>
    obtain ⟨k, l⟩ := e
    simp only [sort_cache, List.map_cons]
    rw [ih]

theorem sort_cache_get (P S : ℕ) (c : rcache) (t : totmap) (k : ℕ)
    (hk : k ∈ c.map Prod.fst) :
    cache_get (sort_cache P S c t).1 k = (sort_record_list P S (cache_get c k)).1 := by
  induction c generalizing t with
  | nil => simp at hk
  | cons e rest ih =>
    obtain ⟨k0, l0⟩ := e
    simp only [sort_cache]
    rw [cache_get_cons, cache_get_cons]
    by_cases h : k0 = k
    · rw [if_pos h, if_pos h]
    · rw [if_neg h, if_neg h]
      simp only [List.map_cons, List.mem_cons] at hk
      rcases hk with rfl | hk
      · exact absurd rfl h
      · exact ih _ hk

theorem sort_cache_tot_not_mem (P S : ℕ) (c : rcache) (t : totmap) (k : ℕ)
    (hk : k ∉ c.map Prod.fst) :
    tot_get (sort_cache P S c t).2 k = tot_get t k := by
  induction c generalizing t with
  | nil => rfl
  | cons e rest ih =>
    obtain ⟨k0, l0⟩ := e
    simp only [List.map_cons, List.mem_cons, not_or] at hk
    simp only [sort_cache]
    rw [ih _ hk.2, tot_get_set_other _ _ _ _ (fun he => hk.1 he)]

theorem sort_cache_tot (P S : ℕ) (c : rcache) (t : totmap) (k : ℕ)
    (hwf : cache_wf c) (hk : k ∈ c.map Prod.fst) :
    tot_get (sort_cache P S c t).2 k = (sort_record_list P S (cache_get c k)).2 := by
  induction c generalizing t with
  | nil => simp at hk
  | cons e rest ih =>
    obtain ⟨k0, l0⟩ := e
    unfold cache_wf at hwf
    simp only [List.map_cons, List.sorted_cons] at hwf
    simp only [sort_cache]
    by_cases h : k0 = k
    · subst h
      have hnot : k0 ∉ rest.map Prod.fst := fun hm => absurd (hwf.1 k0 hm) (lt_irrefl k0)
      rw [sort_cache_tot_not_mem _ _ _ _ _ hnot, tot_get_set_self,
        cache_get_cons, if_pos rfl]
    · simp only [List.map_cons, List.mem_cons] at hk
      rcases hk with rfl | hk
      · exact absurd rfl h
      · rw [ih _ hwf.2 hk, cache_get_cons, if_neg h]

theorem running_positions_add (a b : ℕ) (l : List ℕ) :
    running_positions (a + b) l = (running_positions b l).map (a + ·) := by
  induction l generalizing b with
  | nil => rfl
  | cons x xs ih =>
    simp only [running_positions, List.map_cons]
    refine congrArg₂ _ rfl ?_
    rw [show a + b + x = a + (b + x) by omega]
    exact ih (b + x)

theorem running_positions_length (a : ℕ) (l : List ℕ) :
    (running_positions a l).length = l.length := by
  induction l generalizing a with
  | nil => rfl
  | cons x xs ih => simp [running_positions, ih]

theorem write_page_slice (rs : ℕ) (hrs : 0 < rs) (c : rcache) (t : totmap) :
    ∀ (K : List ℕ) (k : ℕ), k ∈ K →
    ((write_page rs c t K).payload.drop
        ((write_page rs c t K).positions.getD (K.indexOf k) 0 / rs)).take
      ((write_page rs c t K).lens.getD (K.indexOf k) 0 / rs) = cache_get c k := by
  intro K
  induction K with
  | nil => intro k hk; simp at hk
  | cons a K' ih =>
    intro k hk
    by_cases hak : k = a
    · subst hak
      simp only [write_page, List.map_cons, List.indexOf_cons_self, running_positions]
      simp only [List.getD_cons_zero, Nat.zero_div, List.drop_zero,
        Nat.mul_div_cancel _ hrs, List.flatten_cons]
      exact List.take_left _ _
    · have hk' : k ∈ K' := by
        rcases List.mem_cons.mp hk with h | h
        · exact absurd h hak
        · exact h
      have hidx : K'.indexOf k < K'.length := List.indexOf_lt_length.mpr hk'
      simp only [write_page, List.map_cons, running_positions, List.flatten_cons]
      rw [List.indexOf_cons_ne _ (fun he => hak he.symm)]
      have hshift : running_positions (0 + (cache_get c a).length * rs) (K'.map (fun x => (cache_get c x).length * rs))
          = (running_positions 0 (K'.map (fun x => (cache_get c x).length * rs))).map
              ((cache_get c a).length * rs + ·) := by
        rw [Nat.zero_add]
        have := running_positions_add ((cache_get c a).length * rs) 0
          (K'.map (fun x => (cache_get c x).length * rs))
        rwa [Nat.add_zero] at this
      rw [hshift]
      rw [List.getD_cons_succ, List.getD_cons_succ]
      have hlen1 : K'.indexOf k <
          ((running_positions 0 (K'.map (fun x => (cache_get c x).length * rs))).map
            ((cache_get c a).length * rs + ·)).length := by
        rw [List.length_map, running_positions_length, List.length_map]
        exact hidx
      rw [List.getD_eq_getElem _ _ hlen1, List.getElem_map]
      rw [Nat.add_comm ((cache_get c a).length * rs) _, Nat.add_mul_div_right _ _ hrs]
      rw [Nat.add_comm _ (cache_get c a).length, List.drop_append]
      have := ih k hk'
      simp only [write_page] at this
      rw [List.getD_eq_getElem
        (running_positions 0 (K'.map (fun x => (cache_get c x).length * rs))) 0
        (by rw [running_positions_length, List.length_map]; exact hidx)] at this
      exact this

theorem write_page_total (rs : ℕ) (c : rcache) (t : totmap) (K : List ℕ)
    (k : ℕ) (hk : k ∈ K) :
    (write_page rs c t K).totals.getD (K.indexOf k) 0 = tot_get t k := by
  have hidx : K.indexOf k < K.length := List.indexOf_lt_length.mpr hk
  simp only [write_page]
  rw [List.getD_eq_getElem _ 0 (by rw [List.length_map]; exact hidx), List.getElem_map,
    List.getElem_indexOf]

theorem mem_partition_keys (H : ℕ) (c : rcache) (p k : ℕ) :
    k ∈ partition_keys H c p ↔ k ∈ c.map Prod.fst ∧ page_partition H k = p := by
  simp [partition_keys, List.mem_filter]

theorem mem_cache_partitions (H : ℕ) (c : rcache) (k : ℕ)
    (hk : k ∈ c.map Prod.fst) : page_partition H k ∈ cache_partitions H c := by
  unfold cache_partitions
  rw [List.mem_dedup, (List.perm_insertionSort _ _).mem_iff]
  obtain ⟨e, he, rfl⟩ := List.mem_map.mp hk
  exact List.mem_map_of_mem _ he

theorem find?_pages_eq (rs H : ℕ) (c : rcache) (t : totmap) (k : ℕ)
    (hk : k ∈ c.map Prod.fst) :
    ∀ (L : List ℕ), page_partition H k ∈ L →
    (L.map (fun p => write_page rs c t (partition_keys H c p))).find?
        (fun pg => pg.keys.contains k)
      = some (write_page rs c t (partition_keys H c (page_partition H k))) := by
  intro L
  induction L with
  | nil => intro h; simp at h
  | cons p L' ih =>
    intro hmem
    by_cases hp : p = page_partition H k
    · subst hp
      have hin : k ∈ partition_keys H c (page_partition H k) :=
        (mem_partition_keys H c _ k).mpr ⟨hk, rfl⟩
      simp only [List.map_cons, List.find?]
      rw [show ((write_page rs c t (partition_keys H c (page_partition H k))).keys.contains k) = true by
        simp only [write_page]
        exact List.elem_eq_true_of_mem hin]
    · have hmem' : page_partition H k ∈ L' := by
        rcases List.mem_cons.mp hmem with h | h
        · exact absurd h.symm hp
        · exact h
      have hnot : k ∉ partition_keys H c p := by
        intro hc
        exact hp ((mem_partition_keys H c p k).mp hc).2.symm
      simp only [List.map_cons, List.find?]
      rw [show ((write_page rs c t (partition_keys H c p)).keys.contains k) = false by
        simp only [write_page]
        simpa using hnot]
      exact ih hmem'

theorem stored_postings_save_file (rs H : ℕ) (hrs : 0 < rs) (c : rcache)
    (t : totmap) (k : ℕ) (hk : k ∈ c.map Prod.fst) :
    stored_postings rs (save_file rs H c t) k = cache_get c k := by
  unfold stored_postings save_file
  rw [find?_pages_eq rs H c t k hk _ (mem_cache_partitions H c k hk)]
  have hin : k ∈ partition_keys H c (page_partition H k) :=
    (mem_partition_keys H c _ k).mpr ⟨hk, rfl⟩
  dsimp only
  exact write_page_slice rs hrs c t _ k hin

theorem stored_postings_save_file_absent (rs H : ℕ) (c : rcache)
    (t : totmap) (k : ℕ) (hk : k ∉ c.map Prod.fst) :
    stored_postings rs (save_file rs H c t) k = [] := by
  unfold stored_postings save_file
  rw [List.find?_eq_none.mpr]
  intro pg hpg
  rw [List.mem_map] at hpg
  obtain ⟨p, _, rfl⟩ := hpg
  have : k ∉ partition_keys H c p := by
    intro hc
    exact hk ((mem_partition_keys H c p k).mp hc).1
  simpa [write_page] using this

theorem stored_total_save_file (rs H : ℕ) (c : rcache)
    (t : totmap) (k : ℕ) (hk : k ∈ c.map Prod.fst) :
    stored_total (save_file rs H c t) k = tot_get t k := by
  unfold stored_total save_file
  rw [find?_pages_eq rs H c t k hk _ (mem_cache_partitions H c k hk)]
  have hin : k ∈ partition_keys H c (page_partition H k) :=
    (mem_partition_keys H c _ k).mpr ⟨hk, rfl⟩
  dsimp only
  exact write_page_total rs c t _ k hin

theorem stored_total_save_file_absent (rs H : ℕ) (c : rcache)
    (t : totmap) (k : ℕ) (hk : k ∉ c.map Prod.fst) :
    stored_total (save_file rs H c t) k = 0 := by
  unfold stored_total save_file
  rw [List.find?_eq_none.mpr]
  intro pg hpg
  rw [List.mem_map] at hpg
  obtain ⟨p, _, rfl⟩ := hpg
  have : k ∉ partition_keys H c p := by
    intro hc
    exact hk ((mem_partition_keys H c p k).mp hc).1
  simpa [write_page] using this

theorem merge_data_eq (rs bl H P S : ℕ) (f1 f2 f3 : Bool) (s : shard_state) :
    (merge rs bl H P S f1 f2 f3 s).data
      = save_file rs H
          (sort_cache P S (read_append_cache rs bl f1 f2 f3 s).1
            (read_append_cache rs bl f1 f2 f3 s).2).1
          (sort_cache P S (read_append_cache rs bl f1 f2 f3 s).1
            (read_append_cache rs bl f1 f2 f3 s).2).2 := rfl

theorem merged_postings (rs bl H P S : ℕ) (hrs : 0 < rs) (f1 f2 f3 : Bool)
    (s : shard_state) (k : ℕ)
    (hk : k ∈ (read_append_cache rs bl f1 f2 f3 s).1.map Prod.fst) :
    stored_postings rs (merge rs bl H P S f1 f2 f3 s).data k
      = (sort_record_list P S
          (cache_get (read_append_cache rs bl f1 f2 f3 s).1 k)).1 := by
  rw [merge_data_eq]
  rw [stored_postings_save_file rs H hrs _ _ k (by rw [sort_cache_map_fst]; exact hk)]
  exact sort_cache_get P S _ _ k hk

theorem merged_postings_absent (rs bl H P S : ℕ) (f1 f2 f3 : Bool)
    (s : shard_state) (k : ℕ)
    (hk : k ∉ (read_append_cache rs bl f1 f2 f3 s).1.map Prod.fst) :
    stored_postings rs (merge rs bl H P S f1 f2 f3 s).data k = [] := by
  rw [merge_data_eq]
  exact stored_postings_save_file_absent rs H _ _ k (by rw [sort_cache_map_fst]; exact hk)

theorem merged_total (rs bl H P S : ℕ) (f1 f2 f3 : Bool)
    (s : shard_state) (k : ℕ)
    (hk : k ∈ (read_append_cache rs bl f1 f2 f3 s).1.map Prod.fst) :
    stored_total (merge rs bl H P S f1 f2 f3 s).data k
      = (sort_record_list P S
          (cache_get (read_append_cache rs bl f1 f2 f3 s).1 k)).2 := by
  rw [merge_data_eq]
  rw [stored_total_save_file rs H _ _ k (by rw [sort_cache_map_fst]; exact hk)]
  exact sort_cache_tot P S _ _ k (read_append_cache_wf rs bl f1 f2 f3 s) hk

theorem merged_total_absent (rs bl H P S : ℕ) (f1 f2 f3 : Bool)
    (s : shard_state) (k : ℕ)
    (hk : k ∉ (read_append_cache rs bl f1 f2 f3 s).1.map Prod.fst) :
    stored_total (merge rs bl H P S f1 f2 f3 s).data k = 0 := by
  rw [merge_data_eq]
  exact stored_total_save_file_absent rs H _ _ k (by rw [sort_cache_map_fst]; exact hk)

theorem order_sections_length (S P : ℕ) :
    ∀ (l : List data_record), (order_sections_by_value S P l).length = l.length := by
  induction S with
  | zero => intro l; rfl
  | succ S' ih =>
    intro l
    unfold order_sections_by_value
    split_ifs with h
    · exact List.length_insertionSort _ _
    · rw [List.length_append, List.length_insertionSort, ih, List.length_take,
        List.length_drop]
      omega

theorem sort_record_list_total (P S : ℕ) (l : List data_record) :
    (sort_record_list P S l).2 = (coalesce (List.insertionSort rec_le l)).length := by
  unfold sort_record_list
  dsimp only
  split_ifs <;> rfl

theorem sort_record_list_length_le (P S : ℕ) (hS : 1 ≤ S) (l : List data_record) :
    (sort_record_list P S l).1.length ≤ S * P := by
  unfold sort_record_list
  dsimp only
  split_ifs with h1 h2
  · rw [order_sections_length, List.length_take]
    have he : (List.insertionSort score_ge (coalesce (List.insertionSort rec_le l))).length
        = (coalesce (List.insertionSort rec_le l)).length := List.length_insertionSort _ _
    have hc : P * S = S * P := Nat.mul_comm P S
    omega
  · rw [order_sections_length]
    push_neg at h2
    have he : (List.insertionSort score_ge (coalesce (List.insertionSort rec_le l))).length
        = (coalesce (List.insertionSort rec_le l)).length := List.length_insertionSort _ _
    have hc : P * S = S * P := Nat.mul_comm P S
    omega
  · push_neg at h1
    calc (coalesce (List.insertionSort rec_le l)).length ≤ P := h1
    _ ≤ S * P := by
      have := Nat.mul_le_mul_right P hS
      omega

theorem sorted_slice {l : List data_record} (h : l.Sorted rec_le) (a b : ℕ) :
    ((l.drop a).take b).Sorted rec_le :=
  List.Pairwise.sublist ((List.take_sublist _ _).trans (List.drop_sublist _ _)) h

theorem order_sections_sorted (S P : ℕ) :
    ∀ (l : List data_record), l.length ≤ S * P → ∀ (i : ℕ),
    (((order_sections_by_value S P l).drop (i * P)).take P).Sorted rec_le := by
  induction S with
  | zero =>
    intro l hl i
    have : l = [] := List.eq_nil_of_length_eq_zero (by omega)
    subst this
    simp [order_sections_by_value, List.Sorted]
  | succ S' ih =>
    intro l hl i
    unfold order_sections_by_value
    split_ifs with h
    · exact sorted_slice (List.sorted_insertionSort _ _) _ _
    · push_neg at h
      have hlenA : (List.insertionSort rec_le (l.take P)).length = P := by
        rw [List.length_insertionSort, List.length_take]
        omega
      cases i with
      | zero =>
        rw [Nat.zero_mul, List.drop_zero, List.take_append_eq_append_take, hlenA,
          Nat.sub_self, List.take_zero, List.append_nil]
        exact List.Pairwise.sublist (List.take_sublist _ _) (List.sorted_insertionSort _ _)
      | succ j =>
        rw [show (j + 1) * P = (List.insertionSort rec_le (l.take P)).length + j * P by
            rw [hlenA]; ring,
          List.drop_append]
        refine ih (l.drop P) ?_ j
        rw [List.length_drop]
        have : (S' + 1) * P = S' * P + P := by ring
        omega

/-- C7: for every prior shard state, spill contents and key (and any
outcome of the allocation-failure flags), after `merge` the posting list
stored for the key in `.data` holds at most `S·P` records, where `P` is
`Config::ft_max_results_per_section` and `S` is `Config::ft_max_sections`
(both parameters here, with the configured `S ≥ 1`). -/
theorem C7_truncation_bound (rs bl H P S : ℕ) (hrs : 0 < rs) (hS : 1 ≤ S)
    (f1 f2 f3 : Bool) (s : shard_state) (key : ℕ) :
    (stored_postings rs (merge rs bl H P S f1 f2 f3 s).data key).length ≤ S * P := by
  by_cases hk : key ∈ (read_append_cache rs bl f1 f2 f3 s).1.map Prod.fst
  · rw [merged_postings rs bl H P S hrs f1 f2 f3 s key hk]
    exact sort_record_list_length_le P S hS _
  · rw [merged_postings_absent rs bl H P S f1 f2 f3 s key hk]
    simp

/-- C7, witness: six records for one key with `P = S = 2` — the stored
list after merge has at most 4 records. -/
theorem C7_truncation_bound_witness :
    0 < 12 ∧ 1 ≤ 2 ∧
    (stored_postings 12 (merge 12 24 0 2 2 false false false
      { data := [], keyfile := [], meta := none,
        cache_records := [⟨1,0,3⟩, ⟨2,0,2⟩, ⟨3,0,1⟩, ⟨4,0,5⟩, ⟨5,0,4⟩, ⟨6,0,6⟩],
        cache_keys := [7,7,7,7,7,7] }).data 7).length ≤ 2 * 2 :=
  ⟨by decide, by decide,
    C7_truncation_bound 12 24 0 2 2 (by decide) (by decide) false false false _ 7⟩

/-- C8: after `merge`, for every key whose normalized (deduplicated)
posting list exceeded `P` records — equivalently whose stored
total-results word exceeds `P` — every contiguous section of `P` records
of the stored list is sorted ascending by record value (sections past the
end are empty and trivially sorted). -/
theorem C8_section_ordering (rs bl H P S : ℕ) (hrs : 0 < rs)
    (f1 f2 f3 : Bool) (s : shard_state) (key : ℕ)
    (htrunc : P < stored_total (merge rs bl H P S f1 f2 f3 s).data key) (i : ℕ) :
    (((stored_postings rs (merge rs bl H P S f1 f2 f3 s).data key).drop (i * P)).take P).Sorted
      rec_le := by
  by_cases hk : key ∈ (read_append_cache rs bl f1 f2 f3 s).1.map Prod.fst
  · rw [merged_total rs bl H P S f1 f2 f3 s key hk, sort_record_list_total] at htrunc
    rw [merged_postings rs bl H P S hrs f1 f2 f3 s key hk]
    unfold sort_record_list
    dsimp only
    rw [if_pos htrunc]
    refine order_sections_sorted S P _ ?_ i
    split_ifs with hcap
    · rw [List.length_take]
      have hc : P * S = S * P := Nat.mul_comm P S
      omega
    · push_neg at hcap
      have he : (List.insertionSort score_ge
            (coalesce (List.insertionSort rec_le (cache_get (read_append_cache rs bl f1 f2 f3 s).1 key)))).length
          = (coalesce (List.insertionSort rec_le (cache_get (read_append_cache rs bl f1 f2 f3 s).1 key))).length :=
        List.length_insertionSort _ _
      have hc : P * S = S * P := Nat.mul_comm P S
      omega
  · rw [merged_total_absent rs bl H P S f1 f2 f3 s key hk] at htrunc
    omega

/-- C8, witness: three distinct-value records with `P = 1`, `S = 2`; the
stored total is 3 > P and the first section is value-sorted. -/
theorem C8_section_ordering_witness :
    0 < 12 ∧
    1 < stored_total (merge 12 24 0 1 2 false false false
      { data := [], keyfile := [], meta := none,
        cache_records := [⟨1,0,3⟩, ⟨2,0,2⟩, ⟨3,0,1⟩],
        cache_keys := [7,7,7] }).data 7 ∧
    (((stored_postings 12 (merge 12 24 0 1 2 false false false
      { data := [], keyfile := [], meta := none,
        cache_records := [⟨1,0,3⟩, ⟨2,0,2⟩, ⟨3,0,1⟩],
        cache_keys := [7,7,7] }).data 7).drop (0 * 1)).take 1).Sorted rec_le :=
  ⟨by decide, by decide,
    C8_section_ordering 12 24 0 1 2 (by decide) false false false _ 7 (by decide) 0⟩

/-- C6: adding `(k, {value = v, count = 1, score = q})` three times to a
fresh builder, then `append()` and `merge()`, stores for `k` exactly one
record `{value = v, count = 3, score = 3q}`: the run of equal-value records
is coalesced by `+=` (summing counts and scores) and deduplicated to the
run head (for any record size `rs > 0` and configured `P ≥ 1`; the reader
side is the spec-modelled `stored_postings`). -/
theorem C6_dedup_sum (k v : ℕ) (q : ℚ) (rs bl H P S : ℕ) (hrs : 0 < rs) (hP : 1 ≤ P) :
    stored_postings rs (merge rs bl H P S false false false
      (builder_append (builder_add (builder_add (builder_add
        ⟨⟨[], [], none, [], []⟩, [], []⟩ k ⟨v,1,q⟩) k ⟨v,1,q⟩) k ⟨v,1,q⟩)).files).data k
      = [⟨v, 3, 3 * q⟩] := by
  have hb : (builder_append (builder_add (builder_add (builder_add
      (⟨⟨[], [], none, [], []⟩, [], []⟩ : builder_state) k ⟨v,1,q⟩) k ⟨v,1,q⟩) k ⟨v,1,q⟩)).files
      = ⟨[], [], none, [⟨v,1,q⟩,⟨v,1,q⟩,⟨v,1,q⟩], [k,k,k]⟩ := rfl
  rw [hb]
  have hc : (read_append_cache rs bl false false false
      ⟨[], [], none, [⟨v,1,q⟩,⟨v,1,q⟩,⟨v,1,q⟩], [k,k,k]⟩).1
      = [(k, [⟨v,1,q⟩,⟨v,1,q⟩,⟨v,1,q⟩])] := by
    show read_spill (read_data_to_cache rs bl false []).1 [k,k,k] [⟨v,1,q⟩,⟨v,1,q⟩,⟨v,1,q⟩] = _
    show read_spill ([], [], true).1 [k,k,k] [⟨v,1,q⟩,⟨v,1,q⟩,⟨v,1,q⟩] = _
    simp [read_spill, cache_push, lt_irrefl]
  rw [merged_postings rs bl H P S hrs false false false _ k (by rw [hc]; simp)]
  rw [hc, cache_get_cons, if_pos rfl]
  have hsorted : List.insertionSort rec_le
      [(⟨v,1,q⟩ : data_record), ⟨v,1,q⟩, ⟨v,1,q⟩] = [⟨v,1,q⟩, ⟨v,1,q⟩, ⟨v,1,q⟩] := by
    refine List.Sorted.insertionSort_eq ?_
    simp [List.Sorted, List.pairwise_iff_forall_sublist, rec_le]
    intro a b hab
    have := List.Sublist.subset hab
    simp at this
    rw [this.1, this.2]
  unfold sort_record_list
  dsimp only
  rw [hsorted]
  have hco : coalesce [(⟨v,1,q⟩ : data_record), ⟨v,1,q⟩, ⟨v,1,q⟩] = [⟨v, 3, 3 * q⟩] := by
    simp only [coalesce, coalesce_run, rec_add, if_pos, data_record.mk.injEq, if_true]
    norm_num
    ring
  rw [hco]
  rw [if_neg (by simp; omega)]

/-- C6, witness at `k = 1`, `v = 7`, `q = 1`, `H = 4`, `P = S = 2`. -/
theorem C6_dedup_sum_witness :
    0 < 12 ∧ 1 ≤ 2 ∧
    stored_postings 12 (merge 12 24 4 2 2 false false false
      (builder_append (builder_add (builder_add (builder_add
        ⟨⟨[], [], none, [], []⟩, [], []⟩ 1 ⟨7,1,1⟩) 1 ⟨7,1,1⟩) 1 ⟨7,1,1⟩)).files).data 1
      = [⟨7, 3, 3 * 1⟩] :=
  ⟨by decide, by decide, C6_dedup_sum 1 7 1 12 24 4 2 2 (by decide) (by decide)⟩

theorem nat_div_add_div_le (a b c : ℕ) : a / c + b / c ≤ (a + b) / c := by
  rcases Nat.eq_zero_or_pos c with rfl | hc
  · simp
  · rw [Nat.le_div_iff_mul_le hc, Nat.add_mul]
    exact Nat.add_le_add (Nat.div_mul_le_self a c) (Nat.div_mul_le_self b c)

theorem sum_div_of_dvd (rs : ℕ) : ∀ (l : List ℕ), (∀ x ∈ l, x % rs = 0) →
    (l.map (· / rs)).sum = l.sum / rs := by
  intro l
  induction l with
  | nil => simp
  | cons a l' ih =>
    intro h
    have ha : a % rs = 0 := h a (List.mem_cons_self a l')
    have h' : ∀ x ∈ l', x % rs = 0 := fun x hx => h x (List.mem_cons_of_mem a hx)
    simp only [List.map_cons, List.sum_cons, ih h']
    obtain ⟨m, rfl⟩ := (Nat.dvd_of_mod_eq_zero ha)
    rcases Nat.eq_zero_or_pos rs with rfl | hrs
    · simp
    · rw [Nat.mul_div_cancel_left m hrs, Nat.mul_comm rs m,
        Nat.add_comm (m * rs) l'.sum, Nat.add_mul_div_right _ _ hrs, Nat.add_comm]

theorem advance_key_of_pos (rs nk : ℕ) (lens : List ℕ) (fuel k n : ℕ)
    (hn : 0 < n) : advance_key rs nk lens (fuel + 1) k n = (k, n, true) := by
  unfold advance_key
  rw [if_neg (by omega)]

theorem advance_key_spec (rs nk : ℕ) (lens : List ℕ) (hlen : lens.length = nk) :
    ∀ (fuel k : ℕ), nk ≤ fuel + k → k < nk →
    0 < ((lens.map (· / rs)).drop (k + 1)).sum →
    ∃ k' n', advance_key rs nk lens (fuel + 1) k 0 = (k', n', true)
      ∧ k' < nk ∧ 0 < n'
      ∧ n' + ((lens.map (· / rs)).drop (k' + 1)).sum
          = ((lens.map (· / rs)).drop (k + 1)).sum := by
  intro fuel
  induction fuel with
  | zero =>
    intro k hfuel hk hsum
    omega
  | succ fuel ih =>
    intro k hfuel hk hsum
    have hk1 : k + 1 < nk := by
      by_contra hc
      push_neg at hc
      have : (lens.map (· / rs)).drop (k + 1) = [] := by
        apply List.drop_eq_nil_of_le
        rw [List.length_map, hlen]
        omega
      rw [this] at hsum
      simp at hsum
    have hdrop : (lens.map (· / rs)).drop (k + 1)
        = lens.getD (k + 1) 0 / rs :: (lens.map (· / rs)).drop (k + 2) := by
      rw [List.drop_eq_getElem_cons (by rw [List.length_map, hlen]; exact hk1)]
      refine congrArg₂ _ ?_ rfl
      rw [List.getElem_map, List.getD_eq_getElem _ _ (by rw [hlen]; exact hk1)]
    unfold advance_key
    rw [if_pos (by exact ⟨rfl, hk⟩)]
    dsimp only
    by_cases hpos : 0 < lens.getD (k + 1) 0 / rs
    · rw [advance_key_of_pos rs nk lens fuel (k + 1) _ hpos]
      refine ⟨k + 1, lens.getD (k + 1) 0 / rs, ?_, hk1, hpos, ?_⟩
      · simp [hlen, hk1]
      · rw [hdrop]
        simp
    · have hz : lens.getD (k + 1) 0 / rs = 0 := Nat.eq_zero_of_not_pos hpos
      have hsum' : 0 < ((lens.map (· / rs)).drop (k + 2)).sum := by
        rw [hdrop, hz] at hsum
        simpa using hsum
      obtain ⟨k', n', heq, hk', hn', hrem⟩ := ih (k + 1) (by omega) hk1 hsum'
      rw [hz, heq]
      refine ⟨k', n', ?_, hk', hn', ?_⟩
      · simp [hlen, hk1]
      · rw [hrem, hdrop, hz]
        simp

theorem dist_step_spec (rs : ℕ) (keys lens : List ℕ)
    (hlen : lens.length = keys.length) (k n : ℕ) (c : rcache) (r : data_record)
    (hk : k < keys.length)
    (hrem : 0 < n + ((lens.map (· / rs)).drop (k + 1)).sum) :
    ∃ k' n' c', dist_step rs keys.length keys lens (k, n, true, c) r = (k', n', true, c')
      ∧ k' < keys.length
      ∧ n' + ((lens.map (· / rs)).drop (k' + 1)).sum
          = n + ((lens.map (· / rs)).drop (k + 1)).sum - 1 := by
  rcases Nat.eq_zero_or_pos n with rfl | hn
  · simp only [Nat.zero_add] at hrem
    obtain ⟨k₁, n₁, heq, hk₁, hn₁, hsum₁⟩ :=
      advance_key_spec rs keys.length lens hlen keys.length k (by omega) hk hrem
    refine ⟨k₁, n₁ - 1, cache_push (keys.getD k₁ 0) r c, ?_, hk₁, by omega⟩
    unfold dist_step
    dsimp only
    rw [heq]
    dsimp only
    rw [if_pos hn₁]
    simp
  · refine ⟨k, n - 1, cache_push (keys.getD k 0) r c, ?_, hk, by omega⟩
    unfold dist_step
    dsimp only
    rw [advance_key_of_pos rs keys.length lens keys.length k n hn]
    dsimp only
    rw [if_pos hn]
    simp

theorem dist_fold_spec (rs : ℕ) (keys lens : List ℕ)
    (hlen : lens.length = keys.length) :
    ∀ (recs : List data_record) (k n : ℕ) (c : rcache), k < keys.length →
    recs.length ≤ n + ((lens.map (· / rs)).drop (k + 1)).sum →
    ∃ k' n' c', recs.foldl (dist_step rs keys.length keys lens) (k, n, true, c)
        = (k', n', true, c')
      ∧ k' < keys.length
      ∧ n' + ((lens.map (· / rs)).drop (k' + 1)).sum
          = n + ((lens.map (· / rs)).drop (k + 1)).sum - recs.length := by
  intro recs
  induction recs with
  | nil =>
    intro k n c hk _
    exact ⟨k, n, c, rfl, hk, by simp⟩
  | cons r recs' ih =>
    intro k n c hk hrem
    simp only [List.length_cons] at hrem
    obtain ⟨k₁, n₁, c₁, heq₁, hk₁, hsum₁⟩ :=
      dist_step_spec rs keys lens hlen k n c r hk (by omega)
    rw [List.foldl_cons, heq₁]
    obtain ⟨k', n', c', heq', hk', hsum'⟩ := ih k₁ n₁ c₁ hk₁ (by omega)
    refine ⟨k', n', c', heq', hk', ?_⟩
    simp only [List.length_cons]
    omega

theorem read_page_loop_ok (rs bl data_size : ℕ) (keys lens : List ℕ)
    (payload : List data_record) (hlen : lens.length = keys.length) :
    ∀ (fuel total_read k n : ℕ) (c : rcache), k < keys.length →
    (data_size - total_read) / rs ≤ n + ((lens.map (· / rs)).drop (k + 1)).sum →
    (read_page_loop rs bl data_size keys lens payload fuel total_read (k, n, true, c)).2
      = true := by
  intro fuel
  induction fuel with
  | zero =>
    intro total_read k n c hk hrem
    rfl
  | succ fuel ih =>
    intro total_read k n c hk hrem
    unfold read_page_loop
    dsimp only
    split_ifs with h1 h2
    · rfl
    · have hchunk : (chunk_records rs payload total_read
          (min (min bl (data_size - total_read)) (payload.length * rs - total_read))).length
          = min (min bl (data_size - total_read)) (payload.length * rs - total_read) / rs := by
        unfold chunk_records
        rw [List.length_map, List.length_range]
      have hgle : min (min bl (data_size - total_read)) (payload.length * rs - total_read)
          ≤ data_size - total_read := le_trans (Nat.min_le_left _ _) (Nat.min_le_right _ _)
      have hmle : min (min bl (data_size - total_read)) (payload.length * rs - total_read) / rs
          ≤ (data_size - total_read) / rs := Nat.div_le_div_right hgle
      obtain ⟨k', n', c', heq', hk', hsum'⟩ :=
        dist_fold_spec rs keys lens hlen _ k n c hk (by rw [hchunk]; omega)
      rw [heq']
      refine ih _ k' n' c' hk' ?_
      rw [hsum', hchunk]
      have hsub : (data_size - total_read
            - min (min bl (data_size - total_read)) (payload.length * rs - total_read)) / rs
          + min (min bl (data_size - total_read)) (payload.length * rs - total_read) / rs
          ≤ (data_size - total_read) / rs := by
        refine le_trans (nat_div_add_div_le _ _ _) ?_
        rw [Nat.sub_add_cancel hgle]
      have hss : data_size - total_read
            - min (min bl (data_size - total_read)) (payload.length * rs - total_read)
          = data_size - (total_read
            + min (min bl (data_size - total_read)) (payload.length * rs - total_read)) := by
        omega
      rw [hss] at hsub
      omega
    · rfl

/-- C10, amended: in `read_page`, whenever the page's declared per-key
lengths array has one entry per key and every declared length is a multiple
of the record size — as in every page `write_page` produces — every access
`lens[key_id]` of the record-distribution loop happens with
`key_id < num_keys` (the model's bounds flag stays `true`), for every
buffer size and page payload. -/
theorem C10_read_page_lens_in_bounds (rs bl : ℕ) (pg : page_t) (c : rcache)
    (t : totmap) (hlen : pg.lens.length = pg.keys.length)
    (hmul : ∀ len ∈ pg.lens, len % rs = 0) :
    (read_page_model rs bl pg c t).2.2 = true := by
  unfold read_page_model
  dsimp only
  split_ifs with h0
  · rfl
  · have hpos : 0 < pg.lens.length := by
      by_contra hc
      push_neg at hc
      have : pg.lens = [] := List.eq_nil_of_length_eq_zero (by omega)
      rw [this] at h0
      simp at this h0
    have hok0 : decide (0 < pg.lens.length) = true := by
      simpa using hpos
    rw [hok0]
    have hdrop : (pg.lens.map (· / rs)).drop 0
        = pg.lens.getD 0 0 / rs :: (pg.lens.map (· / rs)).drop 1 := by
      rw [List.drop_eq_getElem_cons (by rw [List.length_map]; exact hpos)]
      refine congrArg₂ _ ?_ rfl
      rw [List.getElem_map, List.getD_eq_getElem _ _ hpos]
    refine read_page_loop_ok rs bl pg.lens.sum pg.keys pg.lens pg.payload hlen
      pg.lens.sum 0 0 (pg.lens.getD 0 0 / rs) c (by omega) ?_
    rw [Nat.sub_zero]
    rw [← sum_div_of_dvd rs pg.lens hmul]
    have := congrArg List.sum hdrop
    rw [List.drop_zero, List.sum_cons] at this
    simp only [Nat.zero_add]
    omega

/-- C10, counterexample: a page declaring two lengths of 6 bytes for a
12-byte record yields `data_size = 12` (one parsed record) but zero
records' worth of per-key capacity, so the advance loop runs past the last
key and reads `lens[2]` with `num_keys = 2` — out of bounds (the model's
bounds flag goes `false`). -/
theorem C10_read_page_oob_counterexample :
    (read_page_model 12 100
      { keys := [1, 2], positions := [0, 6], lens := [6, 6], totals := [0, 0],
        payload := [⟨5, 0, 1⟩] } [] []).2.2 = false := by
  decide

/-- C10, witness for the amended theorem: a well-formed two-key page
(lengths 12 and 24 bytes, 12-byte records) distributes its three records
with all `lens` accesses in bounds. -/
theorem C10_read_page_lens_in_bounds_witness :
    ([12, 24] : List ℕ).length = ([1, 2] : List ℕ).length
    ∧ (∀ len ∈ ([12, 24] : List ℕ), len % 12 = 0)
    ∧ (read_page_model 12 24
        { keys := [1, 2], positions := [0, 12], lens := [12, 24], totals := [1, 2],
          payload := [⟨1, 0, 1⟩, ⟨2, 0, 1⟩, ⟨3, 0, 1⟩] } [] []).2.2 = true :=
  ⟨by decide, by decide,
    C10_read_page_lens_in_bounds 12 24 _ [] [] (by decide) (by decide)⟩

theorem rec_add_value (a b : data_record) : (rec_add a b).m_value = a.m_value := rfl

theorem strict_sorted_perm_eq {r : data_record → data_record → Prop}
    (hasym : ∀ a b, r a b → ¬ r b a) :
    ∀ {l l' : List data_record}, l.Pairwise r → l'.Pairwise r → l.Perm l' → l = l' := by
  intro l
  induction l with
  | nil =>
    intro l' _ _ hp
    exact (List.Perm.nil_eq hp).symm ▸ rfl
  | cons x xs ih =>
    intro l' hl hl' hp
    cases l' with
    | nil => exact absurd hp.symm (by simp)
    | cons y ys =>
      have hxy : x = y := by
        by_contra hne
        have hxmem : x ∈ y :: ys := hp.mem_iff.mp (List.mem_cons_self x xs)
        have hymem : y ∈ x :: xs := hp.symm.mem_iff.mp (List.mem_cons_self y ys)
        have hx' : x ∈ ys := by
          rcases List.mem_cons.mp hxmem with h | h
          · exact absurd h hne
          · exact h
        have hy' : y ∈ xs := by
          rcases List.mem_cons.mp hymem with h | h
          · exact absurd h.symm hne
          · exact h
        exact hasym y x (List.rel_of_pairwise_cons hl' hx') (List.rel_of_pairwise_cons hl hy')
      subst hxy
      have hp' : xs.Perm ys := hp.cons_inv
      have := ih hl.tail (List.Pairwise.of_cons hl') hp'
      rw [this]

theorem rec_lt_asymm (a b : data_record) (h : rec_lt a b) : ¬ rec_lt b a := by
  unfold rec_lt at *
  omega

theorem lex_lt_asymm (a b : data_record) (h : lex_lt a b) : ¬ lex_lt b a := by
  unfold lex_lt at *
  intro h'
  obtain ⟨h1, h2⟩ := h
  obtain ⟨h1', h2'⟩ := h'
  have heq : a.m_score = b.m_score := le_antisymm h1' h1
  have hv1 := h2 (le_of_eq heq)
  have hv2 := h2' (le_of_eq heq.symm)
  omega

theorem pairwise_lt_of_le_nodup :
    ∀ {l : List data_record}, l.Pairwise rec_le → (l.map data_record.m_value).Nodup →
    l.Pairwise rec_lt := by
  intro l
  induction l with
  | nil => intro _ _; exact List.Pairwise.nil
  | cons a l' ih =>
    intro hs hn
    simp only [List.map_cons, List.nodup_cons] at hn
    refine List.Pairwise.cons ?_ (ih hs.tail hn.2)
    intro b hb
    have hle : rec_le a b := List.rel_of_pairwise_cons hs hb
    have hne : a.m_value ≠ b.m_value := fun he => hn.1 (he ▸ List.mem_map_of_mem _ hb)
    unfold rec_le at hle
    unfold rec_lt
    omega

theorem pairwise_le_of_lt {l : List data_record} (h : l.Pairwise rec_lt) :
    l.Pairwise rec_le :=
  h.imp (fun hab => le_of_lt hab)

theorem coalesce_run_strict :
    ∀ (l : List data_record) (acc : data_record),
    (∀ x ∈ l, acc.m_value ≤ x.m_value) → l.Pairwise rec_le →
    (coalesce_run acc l).Pairwise rec_lt
    ∧ (∀ y ∈ coalesce_run acc l, acc.m_value ≤ y.m_value)
    ∧ coalesce_run acc l ≠ [] := by
  intro l
  induction l with
  | nil =>
    intro acc _ _
    refine ⟨List.pairwise_singleton _ _, ?_, by simp [coalesce_run]⟩
    intro y hy
    simp only [coalesce_run, List.mem_singleton] at hy
    rw [hy]
  | cons x xs ih =>
    intro acc hge hs
    unfold coalesce_run
    split_ifs with hv
    · have hge' : ∀ z ∈ xs, (rec_add acc x).m_value ≤ z.m_value := by
        intro z hz
        rw [rec_add_value]
        rw [← hv]
        exact List.rel_of_pairwise_cons hs hz
      obtain ⟨h1, h2, h3⟩ := ih (rec_add acc x) hge' hs.tail
      refine ⟨h1, ?_, h3⟩
      intro y hy
      have := h2 y hy
      rw [rec_add_value] at this
      rw [← hv] at this
      exact le_trans (hge x (List.mem_cons_self x xs)) this
    · have hax : acc.m_value < x.m_value :=
        lt_of_le_of_ne (hge x (List.mem_cons_self x xs)) (fun he => hv he.symm)
      obtain ⟨h1, h2, h3⟩ := ih x (fun z hz => List.rel_of_pairwise_cons hs hz) hs.tail
      refine ⟨List.Pairwise.cons ?_ h1, ?_, by simp⟩
      · intro y hy
        unfold rec_lt
        exact lt_of_lt_of_le hax (h2 y hy)
      · intro y hy
        rcases List.mem_cons.mp hy with rfl | hy'
        · exact le_refl _
        · exact le_trans (le_of_lt hax) (h2 y hy')

theorem coalesce_strict (l : List data_record) (h : l.Pairwise rec_le) :
    (coalesce l).Pairwise rec_lt := by
  cases l with
  | nil => exact List.Pairwise.nil
  | cons r rest =>
    exact (coalesce_run_strict rest r
      (fun x hx => List.rel_of_pairwise_cons h hx) h.tail).1

theorem coalesce_run_ne_nil : ∀ (l : List data_record) (acc : data_record),
    coalesce_run acc l ≠ [] := by
  intro l
  induction l with
  | nil => intro acc; simp [coalesce_run]
  | cons x xs ih =>
    intro acc
    unfold coalesce_run
    split_ifs with hv
    · exact ih _
    · simp

theorem coalesce_ne_nil (l : List data_record) (h : l ≠ []) : coalesce l ≠ [] := by
  cases l with
  | nil => exact absurd rfl h
  | cons r rest => exact coalesce_run_ne_nil rest r

theorem coalesce_run_of_strict :
    ∀ (rest : List data_record) (r : data_record),
    (r :: rest).Pairwise rec_lt → coalesce_run r rest = r :: rest := by
  intro rest
  induction rest with
  | nil => intro r _; rfl
  | cons x xs ih =>
    intro r h
    unfold coalesce_run
    rw [if_neg (by
      have : rec_lt r x := List.rel_of_pairwise_cons h (List.mem_cons_self x xs)
      unfold rec_lt at this
      omega)]
    rw [ih x (List.Pairwise.of_cons h)]

theorem coalesce_of_strict (l : List data_record) (h : l.Pairwise rec_lt) :
    coalesce l = l := by
  cases l with
  | nil => rfl
  | cons r rest => exact coalesce_run_of_strict rest r h

theorem orderedInsert_lex (a : data_record) :
    ∀ (l : List data_record), l.Pairwise lex_lt →
    (∀ b ∈ l, a.m_value < b.m_value) →
    (l.orderedInsert score_ge a).Pairwise lex_lt := by
  intro l
  induction l with
  | nil =>
    intro _ _
    exact List.pairwise_singleton _ _
  | cons b l' ih =>
    intro hl hval
    unfold List.orderedInsert
    split_ifs with hcmp
    · refine List.Pairwise.cons ?_ hl
      intro c hc
      rcases List.mem_cons.mp hc with rfl | hc'
      · exact ⟨hcmp, fun _ => hval c (List.mem_cons_self c l')⟩
      · have hbc : lex_lt b c := List.rel_of_pairwise_cons hl hc'
        refine ⟨le_trans hbc.1 hcmp, fun hab => ?_⟩
        exact hval c (List.mem_cons_of_mem b hc')
    · have hba : b.m_score > a.m_score := lt_of_not_ge hcmp
      refine List.Pairwise.cons ?_ (ih (List.Pairwise.of_cons hl)
        (fun c hc => hval c (List.mem_cons_of_mem b hc)))
      intro c hc
      rw [List.mem_orderedInsert] at hc
      rcases hc with rfl | hc'
      · exact ⟨le_of_lt hba, fun habs => absurd habs (not_le.mpr hba)⟩
      · exact List.rel_of_pairwise_cons hl hc'

theorem insertionSort_lex :
    ∀ (l : List data_record), l.Pairwise rec_lt →
    (List.insertionSort score_ge l).Pairwise lex_lt := by
  intro l
  induction l with
  | nil => intro _; exact List.Pairwise.nil
  | cons a l' ih =>
    intro hl
    show (List.orderedInsert score_ge a (List.insertionSort score_ge l')).Pairwise lex_lt
    refine orderedInsert_lex a _ (ih (List.Pairwise.of_cons hl)) ?_
    intro b hb
    rw [List.mem_insertionSort] at hb
    exact List.rel_of_pairwise_cons hl hb

theorem order_sections_perm (S P : ℕ) :
    ∀ (l : List data_record), (order_sections_by_value S P l).Perm l := by
  induction S with
  | zero => intro l; rfl
  | succ S' ih =>
    intro l
    unfold order_sections_by_value
    split_ifs with h
    · exact List.perm_insertionSort _ _
    · refine List.Perm.trans (List.Perm.append (List.perm_insertionSort _ _) (ih _)) ?_
      rw [List.take_append_drop]

theorem order_sections_of_le (S' P : ℕ) (l : List data_record) (h : l.length ≤ P) :
    order_sections_by_value (S' + 1) P l = List.insertionSort rec_le l := by
  unfold order_sections_by_value
  rw [if_pos h]

theorem pairwise_value_nodup {l : List data_record} (h : l.Pairwise rec_lt) :
    (l.map data_record.m_value).Nodup := by
  show (l.map data_record.m_value).Pairwise (· ≠ ·)
  rw [List.pairwise_map]
  refine h.imp ?_
  intro a b hab
  unfold rec_lt at hab
  omega

theorem srl_idem_branch (P S : ℕ) (hS : 1 ≤ S) (capped : List data_record)
    (hlex : capped.Pairwise lex_lt)
    (hnodup : (capped.map data_record.m_value).Nodup)
    (hcaplen : capped.length ≤ P * S) :
    sort_record_list P S (order_sections_by_value S P capped)
      = (order_sections_by_value S P capped,
         (order_sections_by_value S P capped).length) := by
  have hperm : (order_sections_by_value S P capped).Perm capped := order_sections_perm S P capped
  have hVsorted : (List.insertionSort rec_le (order_sections_by_value S P capped)).Pairwise rec_le :=
    List.sorted_insertionSort rec_le _
  have hVperm : (List.insertionSort rec_le (order_sections_by_value S P capped)).Perm capped :=
    (List.perm_insertionSort _ _).trans hperm
  have hVnodup : ((List.insertionSort rec_le (order_sections_by_value S P capped)).map
      data_record.m_value).Nodup :=
    ((hVperm.map data_record.m_value).nodup_iff).mpr hnodup
  have hVstrict : (List.insertionSort rec_le (order_sections_by_value S P capped)).Pairwise rec_lt :=
    pairwise_lt_of_le_nodup hVsorted hVnodup
  have hsummed2 : coalesce (List.insertionSort rec_le (order_sections_by_value S P capped))
      = List.insertionSort rec_le (order_sections_by_value S P capped) :=
    coalesce_of_strict _ hVstrict
  have hVlen : (List.insertionSort rec_le (order_sections_by_value S P capped)).length
      = capped.length := hVperm.length_eq
  by_cases hP2 : P < capped.length
  · have hD2 : List.insertionSort score_ge
        (List.insertionSort rec_le (order_sections_by_value S P capped)) = capped :=
      strict_sorted_perm_eq lex_lt_asymm
        (insertionSort_lex _ hVstrict) hlex
        ((List.perm_insertionSort _ _).trans hVperm)
    unfold sort_record_list
    dsimp only
    rw [hsummed2, hVlen, if_pos hP2, hD2, if_neg (by omega), hperm.length_eq]
  · obtain ⟨S', rfl⟩ : ∃ S', S = S' + 1 := ⟨S - 1, by omega⟩
    push_neg at hP2
    have hl2 : order_sections_by_value (S' + 1) P capped = List.insertionSort rec_le capped :=
      order_sections_of_le S' P capped hP2
    have hV : List.insertionSort rec_le (order_sections_by_value (S' + 1) P capped)
        = order_sections_by_value (S' + 1) P capped := by
      rw [hl2]
      exact List.Sorted.insertionSort_eq (List.sorted_insertionSort rec_le capped)
    unfold sort_record_list
    dsimp only
    rw [hV, coalesce_of_strict _ (by rw [hV] at hVstrict; exact hVstrict),
      if_neg (by rw [hperm.length_eq]; omega)]

theorem srl_idem (P S : ℕ) (hP : 1 ≤ P) (hS : 1 ≤ S) (l : List data_record) :
    sort_record_list P S (sort_record_list P S l).1
      = ((sort_record_list P S l).1, (sort_record_list P S l).1.length) := by
  have hsorted : (List.insertionSort rec_le l).Pairwise rec_le :=
    List.sorted_insertionSort rec_le l
  have hstrict : (coalesce (List.insertionSort rec_le l)).Pairwise rec_lt :=
    coalesce_strict _ hsorted
  by_cases hbr : P < (coalesce (List.insertionSort rec_le l)).length
  · -- truncation/score-sort branch was taken the first time
    have hl2 : (sort_record_list P S l).1
        = order_sections_by_value S P
            (if P * S < (List.insertionSort score_ge (coalesce (List.insertionSort rec_le l))).length
             then (List.insertionSort score_ge (coalesce (List.insertionSort rec_le l))).take (P * S)
             else List.insertionSort score_ge (coalesce (List.insertionSort rec_le l))) := by
      unfold sort_record_list
      dsimp only
      rw [if_pos hbr]
    -- name the capped list and collect its facts
    have hDlex : (List.insertionSort score_ge (coalesce (List.insertionSort rec_le l))).Pairwise lex_lt :=
      insertionSort_lex _ hstrict
    have hcaplex : (if P * S < (List.insertionSort score_ge (coalesce (List.insertionSort rec_le l))).length
             then (List.insertionSort score_ge (coalesce (List.insertionSort rec_le l))).take (P * S)
             else List.insertionSort score_ge (coalesce (List.insertionSort rec_le l))).Pairwise lex_lt := by
      split_ifs with hc
      · exact List.Pairwise.sublist (List.take_sublist _ _) hDlex
      · exact hDlex
    have hcapnodup : ((if P * S < (List.insertionSort score_ge (coalesce (List.insertionSort rec_le l))).length
             then (List.insertionSort score_ge (coalesce (List.insertionSort rec_le l))).take (P * S)
             else List.insertionSort score_ge (coalesce (List.insertionSort rec_le l))).map
          data_record.m_value).Nodup := by
      have hDnodup : ((List.insertionSort score_ge (coalesce (List.insertionSort rec_le l))).map
          data_record.m_value).Nodup :=
        (((List.perm_insertionSort score_ge _).map data_record.m_value).nodup_iff).mpr
          (pairwise_value_nodup hstrict)
      split_ifs with hc
      · exact List.Nodup.sublist (List.Sublist.map _ (List.take_sublist _ _)) hDnodup
      · exact hDnodup
    have hcaplen' : (if P * S < (List.insertionSort score_ge (coalesce (List.insertionSort rec_le l))).length
             then (List.insertionSort score_ge (coalesce (List.insertionSort rec_le l))).take (P * S)
             else List.insertionSort score_ge (coalesce (List.insertionSort rec_le l))).length ≤ P * S := by
      split_ifs with hc
      · rw [List.length_take]
        omega
      · push_neg at hc
        exact hc
    rw [hl2]
    exact srl_idem_branch P S hS _ hcaplex hcapnodup hcaplen'
  · -- no truncation: the output is the coalesced value-sorted list itself
    have hl2 : (sort_record_list P S l).1 = coalesce (List.insertionSort rec_le l) := by
      unfold sort_record_list
      dsimp only
      rw [if_neg hbr]
    rw [hl2]
    have hs2 : List.insertionSort rec_le (coalesce (List.insertionSort rec_le l))
        = coalesce (List.insertionSort rec_le l) :=
      List.Sorted.insertionSort_eq (pairwise_le_of_lt hstrict)
    unfold sort_record_list
    dsimp only
    rw [hs2, coalesce_of_strict _ hstrict, if_neg hbr]

theorem push_all_append (A B : List (ℕ × data_record)) (c : rcache) :
    push_all (A ++ B) c = push_all B (push_all A c) :=
  List.foldl_append _ _ _ _

theorem push_all_wf (l : List (ℕ × data_record)) (c : rcache) (h : cache_wf c) :
    cache_wf (push_all l c) := cache_push_foldl_wf l c h

theorem push_all_get (k : ℕ) :
    ∀ (L : List (ℕ × data_record)) (c : rcache), cache_wf c →
    cache_get (push_all L c) k
      = cache_get c k ++ (L.filter (fun e => e.1 == k)).map Prod.snd := by
  intro L
  induction L with
  | nil => intro c _; simp [push_all]
  | cons e L' ih =>
    intro c hwf
    obtain ⟨k0, r⟩ := e
    have hstep : push_all ((k0, r) :: L') c = push_all L' (cache_push k0 r c) := rfl
    rw [hstep, ih _ (cache_push_wf _ _ _ hwf)]
    by_cases hk : k0 = k
    · subst hk
      rw [cache_get_push_self _ _ _ hwf]
      simp [List.filter_cons, List.append_assoc]
    · rw [cache_get_push_other _ _ _ _ (Ne.symm hk)]
      simp [List.filter_cons, hk]

theorem push_all_mem (k : ℕ) (L : List (ℕ × data_record)) (c : rcache) :
    k ∈ (push_all L c).map Prod.fst ↔ k ∈ c.map Prod.fst ∨ k ∈ L.map Prod.fst := by
  induction L generalizing c with
  | nil => simp [push_all]
  | cons e L' ih =>
    obtain ⟨k0, r⟩ := e
    have hstep : push_all ((k0, r) :: L') c = push_all L' (cache_push k0 r c) := rfl
    rw [hstep, ih, cache_push_mem_fst]
    simp only [List.map_cons, List.mem_cons]
    tauto

theorem cache_ext : ∀ (c c' : rcache), cache_wf c → cache_wf c' →
    (∀ k, k ∈ c.map Prod.fst ↔ k ∈ c'.map Prod.fst) →
    (∀ k, cache_get c k = cache_get c' k) → c = c' := by
  intro c
  induction c with
  | nil =>
    intro c' _ _ hmem _
    cases c' with
    | nil => rfl
    | cons e' rest' =>
      exact absurd ((hmem e'.1).mpr (by simp)) (by simp)
  | cons e rest ih =>
    intro c' hwf hwf' hmem hget
    obtain ⟨k, l⟩ := e
    cases c' with
    | nil => exact absurd ((hmem k).mp (by simp)) (by simp)
    | cons e' rest' =>
      obtain ⟨k', l'⟩ := e'
      unfold cache_wf at hwf hwf'
      simp only [List.map_cons] at hwf hwf'
      have hlt : ∀ x ∈ rest.map Prod.fst, k < x :=
        fun x hx => List.rel_of_pairwise_cons hwf hx
      have hlt' : ∀ x ∈ rest'.map Prod.fst, k' < x :=
        fun x hx => List.rel_of_pairwise_cons hwf' hx
      have hkk : k = k' := by
        have h1 := (hmem k).mp (by simp)
        have h2 := (hmem k').mpr (by simp)
        simp only [List.map_cons, List.mem_cons] at h1 h2
        rcases h1 with h1 | h1
        · exact h1
        · rcases h2 with h2 | h2
          · exact h2.symm
          · exact absurd (hlt' k h1) (by have := hlt k' h2; omega)
      subst hkk
      have hll : l = l' := by
        have := hget k
        rwa [cache_get_cons, if_pos rfl, cache_get_cons, if_pos rfl] at this
      subst hll
      refine congrArg _ ?_
      have hmem' : ∀ k'', k'' ∈ rest.map Prod.fst ↔ k'' ∈ rest'.map Prod.fst := by
        intro k''
        constructor
        · intro h
          have hne : k'' ≠ k := by have := hlt k'' h; omega
          have h1 : k'' ∈ ((k, l) :: rest).map Prod.fst := by simp [h]
          have h2 := (hmem k'').mp h1
          simp only [List.map_cons, List.mem_cons] at h2
          exact h2.resolve_left hne
        · intro h
          have hne : k'' ≠ k := by have := hlt' k'' h; omega
          have h1 : k'' ∈ ((k, l) :: rest').map Prod.fst := by simp [h]
          have h2 := (hmem k'').mpr h1
          simp only [List.map_cons, List.mem_cons] at h2
          exact h2.resolve_left hne
      refine ih rest' hwf.of_cons hwf'.of_cons hmem' ?_
      intro k''
      by_cases hmm : k'' ∈ rest.map Prod.fst
      · have hne : k'' ≠ k := by have := hlt k'' hmm; omega
        have := hget k''
        rwa [cache_get_cons, if_neg (Ne.symm hne), cache_get_cons,
          if_neg (Ne.symm hne)] at this
      · rw [cache_get_not_mem _ _ hmm,
          cache_get_not_mem _ _ (fun hh => hmm ((hmem' k'').mpr hh))]

theorem cache_push_nonnil (key : ℕ) (r : data_record) (c : rcache)
    (h : cache_nonnil c) : cache_nonnil (cache_push key r c) := by
  induction c with
  | nil =>
    intro e he
    simp only [cache_push, List.mem_singleton] at he
    subst he
    simp
  | cons e0 rest ih =>
    obtain ⟨k, l⟩ := e0
    have hrest : cache_nonnil rest := fun e he => h e (List.mem_cons_of_mem _ he)
    have hl : l ≠ [] := h (k, l) (List.mem_cons_self _ _)
    simp only [cache_push]
    split_ifs with h1 h2
    · intro e he
      rcases List.mem_cons.mp he with rfl | he'
      · simp
      · exact h e he'
    · intro e he
      rcases List.mem_cons.mp he with rfl | he'
      · simp
      · exact hrest e he'
    · intro e he
      rcases List.mem_cons.mp he with rfl | he'
      · exact hl
      · exact ih hrest e he'

theorem push_all_nonnil (l : List (ℕ × data_record)) (c : rcache)
    (h : cache_nonnil c) : cache_nonnil (push_all l c) := by
  induction l generalizing c with
  | nil => exact h
  | cons e rest ih => exact ih _ (cache_push_nonnil _ _ _ h)

theorem dist_step_nonnil (rs num_keys : ℕ) (keys lens : List ℕ)
    (st : ℕ × ℕ × Bool × rcache) (r : data_record) (h : cache_nonnil st.2.2.2) :
    cache_nonnil (dist_step rs num_keys keys lens st r).2.2.2 := by
  unfold dist_step
  dsimp only
  split_ifs
  · exact cache_push_nonnil _ _ _ h
  · exact h

theorem dist_fold_nonnil (rs num_keys : ℕ) (keys lens : List ℕ)
    (rl : List data_record) (st : ℕ × ℕ × Bool × rcache) (h : cache_nonnil st.2.2.2) :
    cache_nonnil ((rl.foldl (dist_step rs num_keys keys lens) st)).2.2.2 := by
  induction rl generalizing st with
  | nil => exact h
  | cons r rest ih => exact ih _ (dist_step_nonnil _ _ _ _ _ _ h)

theorem read_page_loop_nonnil (rs bl data_size : ℕ) (keys lens : List ℕ)
    (payload : List data_record) (fuel : ℕ) :
    ∀ (total_read : ℕ) (st : ℕ × ℕ × Bool × rcache), cache_nonnil st.2.2.2 →
    cache_nonnil (read_page_loop rs bl data_size keys lens payload fuel total_read st).1 := by
  induction fuel with
  | zero => intro _ st h; exact h
  | succ fuel ih =>
    intro total_read st h
    unfold read_page_loop
    dsimp only
    split_ifs
    · intro e he; simp at he
    · exact ih _ _ (dist_fold_nonnil _ _ _ _ _ _ h)
    · exact h

theorem read_page_model_nonnil (rs bl : ℕ) (pg : page_t) (c : rcache) (t : totmap)
    (h : cache_nonnil c) : cache_nonnil (read_page_model rs bl pg c t).1 := by
  unfold read_page_model
  dsimp only
  split_ifs
  · exact h
  · exact read_page_loop_nonnil _ _ _ _ _ _ _ _ _ h

theorem read_pages_fold_nonnil (rs bl : ℕ) (df : data_file) :
    ∀ (acc : rcache × totmap × Bool), cache_nonnil acc.1 →
    cache_nonnil (df.foldl (fun acc pg =>
      let p := read_page_model rs bl pg acc.1 acc.2.1
      (p.1, p.2.1, acc.2.2 && p.2.2)) acc).1 := by
  induction df with
  | nil => intro acc h; exact h
  | cons pg rest ih =>
    intro acc h
    rw [List.foldl_cons]
    exact ih (let p := read_page_model rs bl pg acc.1 acc.2.1;
        (p.1, p.2.1, acc.2.2 && p.2.2))
      (read_page_model_nonnil _ _ _ _ _ h)

theorem read_data_to_cache_nonnil (rs bl : ℕ) (alloc_fail : Bool) (df : data_file) :
    cache_nonnil (read_data_to_cache rs bl alloc_fail df).1 := by
  unfold read_data_to_cache
  split_ifs
  · intro e he; simp at he
  · exact read_pages_fold_nonnil rs bl df ([], [], true) (fun e he => by simp at he)

theorem read_spill_nonnil (c : rcache) (ks : List ℕ) (rraw : List data_record)
    (h : cache_nonnil c) : cache_nonnil (read_spill c ks rraw) :=
  push_all_nonnil (ks.zip rraw) c h

theorem read_append_cache_nonnil (rs bl : ℕ) (f1 f2 f3 : Bool) (s : shard_state) :
    cache_nonnil (read_append_cache rs bl f1 f2 f3 s).1 := by
  unfold read_append_cache
  split_ifs
  · exact read_data_to_cache_nonnil _ _ _ _
  · exact read_spill_nonnil _ _ _ (read_data_to_cache_nonnil _ _ _ _)

theorem list_slice_map_range (p : List data_record) (a : ℕ) :
    ∀ (n : ℕ), a + n ≤ p.length →
    (List.range n).map (fun i => p.getD (a + i) default) = (p.drop a).take n := by
  intro n
  induction n with
  | zero => intro _; simp
  | succ n ih =>
    intro hn
    have h1 : a + n < p.length := by omega
    rw [List.range_succ, List.map_append, ih (by omega), List.take_succ,
      List.getElem?_drop, List.getElem?_eq_getElem h1]
    simp [List.getD_eq_getElem _ _ h1, List.getElem?_eq_getElem h1]

theorem chunk_records_aligned (rs : ℕ) (hrs : 0 < rs) (p : List data_record)
    (tr gcount : ℕ) (htr : tr % rs = 0) (hg : gcount % rs = 0)
    (hle : tr + gcount ≤ p.length * rs) :
    chunk_records rs p tr gcount = (p.drop (tr / rs)).take (gcount / rs) := by
  obtain ⟨a, rfl⟩ := Nat.dvd_of_mod_eq_zero htr
  obtain ⟨g, rfl⟩ := Nat.dvd_of_mod_eq_zero hg
  unfold chunk_records
  have hdiv_a : rs * a / rs = a := Nat.mul_div_cancel_left a hrs
  have hdiv_g : rs * g / rs = g := Nat.mul_div_cancel_left g hrs
  have hlen : a + g ≤ p.length := by
    by_contra hcon
    push_neg at hcon
    have hmul : p.length * rs < (a + g) * rs := (Nat.mul_lt_mul_right hrs).mpr hcon
    have h2 : (a + g) * rs = a * rs + g * rs := Nat.add_mul a g rs
    have h3 : rs * a = a * rs := Nat.mul_comm rs a
    have h4 : rs * g = g * rs := Nat.mul_comm rs g
    omega
  rw [hdiv_a, hdiv_g, ← list_slice_map_range p a g hlen]
  refine List.map_congr_left ?_
  intro i hi
  rw [List.mem_range] at hi
  unfold payload_record
  have hmodz : (rs * a + i * rs) % rs = 0 := by
    rw [show rs * a + i * rs = (a + i) * rs by ring]
    exact Nat.mul_mod_left _ _
  have hoff : (rs * a + i * rs) / rs = a + i := by
    rw [show rs * a + i * rs = (a + i) * rs by ring, Nat.mul_div_cancel _ hrs]
  rw [if_pos hmodz, hoff]

theorem read_page_loop_exact (rs bl : ℕ) (hrs : 0 < rs) (hbl : 0 < bl)
    (hmod : bl % rs = 0) (keys lens : List ℕ) (p : List data_record) :
    ∀ (fuel tr : ℕ) (st : ℕ × ℕ × Bool × rcache),
    tr % rs = 0 → tr ≤ p.length * rs → p.length * rs - tr ≤ fuel →
    read_page_loop rs bl (p.length * rs) keys lens p fuel tr st
      = (((p.drop (tr / rs)).foldl (dist_step rs keys.length keys lens) st).2.2.2,
         ((p.drop (tr / rs)).foldl (dist_step rs keys.length keys lens) st).2.2.1) := by
  intro fuel
  induction fuel with
  | zero =>
    intro tr st htr hle hfuel
    have htreq : tr = p.length * rs := by omega
    subst htreq
    have hd : p.length * rs / rs = p.length := Nat.mul_div_cancel _ hrs
    simp only [read_page_loop, hd, List.drop_length, List.foldl_nil]
  | succ fuel ih =>
    intro tr st htr hle hfuel
    by_cases hlt : tr < p.length * rs
    · have hdvd_tr : rs ∣ tr := Nat.dvd_of_mod_eq_zero htr
      have hdvd_bl : rs ∣ bl := Nat.dvd_of_mod_eq_zero hmod
      have hdvd_ds : rs ∣ p.length * rs := dvd_mul_left rs p.length
      have hdvd_sub : rs ∣ (p.length * rs - tr) := Nat.dvd_sub' hdvd_ds hdvd_tr
      have hdvd_g : rs ∣ min bl (p.length * rs - tr) := by
        rw [Nat.min_def]
        split_ifs
        · exact hdvd_bl
        · exact hdvd_sub
      have hgpos : 0 < min bl (p.length * rs - tr) := by omega
      have hgle : tr + min bl (p.length * rs - tr) ≤ p.length * rs := by omega
      have hgmod : (min bl (p.length * rs - tr)) % rs = 0 :=
        Nat.dvd_iff_mod_eq_zero.mp hdvd_g
      have htrg : (tr + min bl (p.length * rs - tr)) % rs = 0 :=
        Nat.dvd_iff_mod_eq_zero.mp (Nat.dvd_add hdvd_tr hdvd_g)
      have hdivadd : (tr + min bl (p.length * rs - tr)) / rs
          = tr / rs + (min bl (p.length * rs - tr)) / rs := by
        obtain ⟨a, ha⟩ := hdvd_tr
        obtain ⟨b, hb⟩ := hdvd_g
        rw [hb, ha, ← Nat.mul_add, Nat.mul_div_cancel_left _ hrs,
          Nat.mul_div_cancel_left _ hrs, Nat.mul_div_cancel_left _ hrs]
      have hsplit : p.drop (tr / rs)
          = (p.drop (tr / rs)).take ((min bl (p.length * rs - tr)) / rs)
            ++ p.drop ((tr + min bl (p.length * rs - tr)) / rs) := by
        rw [hdivadd, ← List.drop_drop]
        exact (List.take_append_drop _ _).symm
      unfold read_page_loop
      dsimp only
      rw [if_pos hlt]
      have hgc : min (min bl (p.length * rs - tr)) (p.length * rs - tr)
          = min bl (p.length * rs - tr) := by omega
      rw [hgc]
      rw [if_neg (by omega : ¬ (min bl (p.length * rs - tr) = 0))]
      rw [chunk_records_aligned rs hrs p tr _ htr hgmod hgle]
      rw [ih (tr + min bl (p.length * rs - tr)) _ htrg hgle (by omega)]
      conv_rhs => rw [hsplit, List.foldl_append]
    · have htreq : tr = p.length * rs := by omega
      unfold read_page_loop
      dsimp only
      rw [if_neg (by omega)]
      subst htreq
      have hd : p.length * rs / rs = p.length := Nat.mul_div_cancel _ hrs
      rw [hd, List.drop_length, List.foldl_nil]

theorem drop_eq_getD_cons {α : Type} (l : List α) :
    ∀ (n : ℕ) (d : α), n < l.length → l.drop n = l.getD n d :: l.drop (n + 1) := by
  induction l with
  | nil => intro n d h; simp at h
  | cons x xs ih =>
    intro n d h
    cases n with
    | zero => simp
    | succ n =>
      simp only [List.drop_succ_cons, List.getD_cons_succ]
      exact ih n d (by simpa using h)

theorem run_fold (rs : ℕ) (keys lens : List ℕ) :
    ∀ (suf R : List data_record) (j : ℕ) (ok : Bool) (acc : rcache),
    (suf ++ R).foldl (dist_step rs keys.length keys lens) (j, suf.length, ok, acc)
      = R.foldl (dist_step rs keys.length keys lens)
          (j, 0, ok, push_all (suf.map (fun r => (keys.getD j 0, r))) acc) := by
  intro suf
  induction suf with
  | nil => intro R j ok acc; rfl
  | cons r suf' ih =>
    intro R j ok acc
    have hstep : dist_step rs keys.length keys lens (j, suf'.length + 1, ok, acc) r
        = (j, suf'.length, ok, cache_push (keys.getD j 0) r acc) := by
      unfold dist_step
      dsimp only
      rw [advance_key_of_pos rs keys.length lens keys.length j (suf'.length + 1) (by omega)]
      dsimp only
      rw [if_pos (by omega)]
      simp
    rw [List.cons_append, List.foldl_cons]
    simp only [List.length_cons]
    rw [hstep]
    exact ih R j ok _

theorem lens_cap (rs : ℕ) (hrs : 0 < rs) (lists : List (List data_record)) (j : ℕ)
    (hj : j < lists.length) :
    (lists.map (fun l => l.length * rs)).getD j 0 / rs = (lists.getD j []).length := by
  rw [List.getD_eq_getElem _ _ (by simpa using hj), List.getD_eq_getElem _ _ hj,
    List.getElem_map]
  exact Nat.mul_div_cancel _ hrs

theorem keys_fold (rs : ℕ) (hrs : 0 < rs) (keys : List ℕ)
    (lists : List (List data_record)) (hlen : lists.length = keys.length)
    (hne : ∀ l ∈ lists, l ≠ []) :
    ∀ (tl : List (List data_record)) (m : ℕ) (ok : Bool) (acc : rcache),
    lists.drop m = tl → m < lists.length →
    ∃ j n,
      tl.flatten.foldl
          (dist_step rs keys.length keys (lists.map (fun l => l.length * rs)))
          (m, (lists.getD m []).length, ok, acc)
        = (j, n, ok,
            push_all ((((keys.drop m).zip tl).map
              (fun e => e.2.map (fun r => (e.1, r)))).flatten) acc) := by
  intro tl
  induction tl with
  | nil =>
    intro m ok acc hdrop hm
    exfalso
    have hlendrop := congrArg List.length hdrop
    rw [List.length_drop] at hlendrop
    simp only [List.length_nil] at hlendrop
    omega
  | cons l tl' ih =>
    intro m ok acc hdrop hm
    have hm1 : lists.drop (m + 1) = tl' := by
      rw [← List.drop_drop 1 m lists, hdrop]
      simp
    have hgetm : lists.getD m [] = l := by
      have h2 := drop_eq_getD_cons lists m [] hm
      rw [hdrop, hm1] at h2
      injection h2 with h3 h4
      exact h3.symm
    have hmk : m < keys.length := by omega
    have hkm : keys.drop m = keys.getD m 0 :: keys.drop (m + 1) :=
      drop_eq_getD_cons keys m 0 hmk
    have hrun := run_fold rs keys (lists.map (fun l => l.length * rs))
      l tl'.flatten m ok acc
    rw [List.flatten_cons, hgetm, hrun]
    cases tl' with
    | nil =>
      refine ⟨m, 0, ?_⟩
      rw [hkm]
      simp [List.zip_nil_right]
    | cons l' tl'' =>
      have hl'mem : l' ∈ lists := List.drop_subset _ _ (by rw [hm1]; exact List.mem_cons_self _ _)
      have hl'ne : l' ≠ [] := hne l' hl'mem
      have hm1lt : m + 1 < lists.length := by
        have hlendrop := congrArg List.length hm1
        rw [List.length_drop] at hlendrop
        simp only [List.length_cons] at hlendrop
        omega
      have hgetm1 : lists.getD (m + 1) [] = l' := by
        have h2 := drop_eq_getD_cons lists (m + 1) [] hm1lt
        rw [hm1] at h2
        injection h2 with h3 h4
        exact h3.symm
      cases l' with
      | nil => exact absurd rfl hl'ne
      | cons r rl' =>
        have hadv : advance_key rs keys.length (lists.map (fun l => l.length * rs))
            (keys.length + 1) m 0 = (m + 1, (r :: rl').length, true) := by
          unfold advance_key
          rw [if_pos ⟨rfl, hmk⟩]
          dsimp only
          have hcap : (lists.map (fun l => l.length * rs)).getD (m + 1) 0 / rs
              = (r :: rl').length := by
            rw [lens_cap rs hrs lists (m + 1) hm1lt, hgetm1]
          rw [hcap]
          obtain ⟨f, hf⟩ : ∃ f, keys.length = f + 1 := ⟨keys.length - 1, by omega⟩
          rw [hf, advance_key_of_pos rs (f + 1) _ f (m + 1) _ (by simp)]
          simp [List.length_map]
          omega
        have hstepL : dist_step rs keys.length keys (lists.map (fun l => l.length * rs))
            (m, 0, ok, push_all (l.map (fun r => (keys.getD m 0, r))) acc) r
            = (m + 1, rl'.length, ok,
                cache_push (keys.getD (m + 1) 0) r
                  (push_all (l.map (fun r => (keys.getD m 0, r))) acc)) := by
          unfold dist_step
          dsimp only
          rw [hadv]
          dsimp only
          rw [if_pos (by simp)]
          simp
        have hstepR : dist_step rs keys.length keys (lists.map (fun l => l.length * rs))
            (m + 1, (r :: rl').length, ok, push_all (l.map (fun r => (keys.getD m 0, r))) acc) r
            = (m + 1, rl'.length, ok,
                cache_push (keys.getD (m + 1) 0) r
                  (push_all (l.map (fun r => (keys.getD m 0, r))) acc)) := by
          unfold dist_step
          dsimp only
          rw [advance_key_of_pos rs keys.length _ keys.length (m + 1) _ (by simp)]
          dsimp only
          rw [if_pos (by simp)]
          simp
        obtain ⟨j, n, hfin⟩ := ih (m + 1) ok
          (push_all (l.map (fun r => (keys.getD m 0, r))) acc) hm1 hm1lt
        rw [hgetm1, List.flatten_cons, List.cons_append, List.foldl_cons, hstepR] at hfin
        rw [List.flatten_cons, List.cons_append, List.foldl_cons, hstepL]
        refine ⟨j, n, hfin.trans ?_⟩
        rw [hkm, List.zip_cons_cons, List.map_cons, List.flatten_cons, push_all_append]

theorem zip_self_map (f : ℕ → List data_record) :
    ∀ (K : List ℕ), K.zip (K.map f) = K.map (fun k => (k, f k)) := by
  intro K
  induction K with
  | nil => rfl
  | cons k K' ih => simp only [List.map_cons, List.zip_cons_cons, ih]

theorem sum_len_mul (rs : ℕ) :
    ∀ (lists : List (List data_record)),
    (lists.map (fun l => l.length * rs)).sum = lists.flatten.length * rs := by
  intro lists
  induction lists with
  | nil => simp
  | cons l rest ih =>
    simp only [List.map_cons, List.sum_cons, List.flatten_cons, List.length_append, ih,
      Nat.add_mul]

theorem mem_get_ne_nil (c : rcache) (k : ℕ) (hk : k ∈ c.map Prod.fst)
    (hnn : cache_nonnil c) : cache_get c k ≠ [] := by
  induction c with
  | nil => simp at hk
  | cons e rest ih =>
    obtain ⟨k0, l⟩ := e
    rw [cache_get_cons]
    by_cases hk0 : k0 = k
    · rw [if_pos hk0]
      exact hnn (k0, l) (List.mem_cons_self _ _)
    · rw [if_neg hk0]
      simp only [List.map_cons, List.mem_cons] at hk
      exact ih (hk.resolve_left (fun hh => hk0 hh.symm))
        (fun e he => hnn e (List.mem_cons_of_mem _ he))

theorem page_read_exact (rs bl : ℕ) (hrs : 0 < rs) (hbl : 0 < bl) (hmod : bl % rs = 0)
    (c : rcache) (t : totmap) (K : List ℕ) (hKne : K ≠ [])
    (hsub : ∀ k ∈ K, k ∈ c.map Prod.fst) (hnn : cache_nonnil c)
    (acc : rcache) (tacc : totmap) :
    (read_page_model rs bl (write_page rs c t K) acc tacc).1
      = push_all ((K.map (fun k => (cache_get c k).map (fun r => (k, r)))).flatten) acc := by
  have hlistsne : ∀ l ∈ K.map (cache_get c), l ≠ [] := by
    intro l hl
    obtain ⟨k, hk, rfl⟩ := List.mem_map.mp hl
    exact mem_get_ne_nil c k (hsub k hk) hnn
  have hKlen : 0 < K.length := List.length_pos.mpr hKne
  have hlistslen : (K.map (cache_get c)).length = K.length := List.length_map _ _
  have hlensmap : K.map (fun k => (cache_get c k).length * rs)
      = (K.map (cache_get c)).map (fun l => l.length * rs) := by
    rw [List.map_map]
    rfl
  have hsum : (K.map (fun k => (cache_get c k).length * rs)).sum
      = (K.map (cache_get c)).flatten.length * rs := by
    rw [hlensmap]
    exact sum_len_mul rs _
  have hflatpos : 0 < (K.map (cache_get c)).flatten.length := by
    cases K with
    | nil => exact absurd rfl hKne
    | cons k0 K' =>
      have hne0 : cache_get c k0 ≠ [] :=
        mem_get_ne_nil c k0 (hsub k0 (List.mem_cons_self _ _)) hnn
      simp only [List.map_cons, List.flatten_cons, List.length_append]
      have := List.length_pos.mpr hne0
      omega
  have hds0 : ¬ (K.map (fun k => (cache_get c k).length * rs)).sum = 0 := by
    rw [hsum]
    have : 0 < (K.map (cache_get c)).flatten.length * rs :=
      Nat.mul_pos hflatpos hrs
    omega
  unfold read_page_model write_page
  dsimp only
  rw [if_neg hds0]
  have hcap0 : (K.map (fun k => (cache_get c k).length * rs)).getD 0 0 / rs
      = ((K.map (cache_get c)).getD 0 []).length := by
    rw [hlensmap]
    exact lens_cap rs hrs _ 0 (by omega)
  rw [hcap0, hsum, hlensmap]
  rw [read_page_loop_exact rs bl hrs hbl hmod K _ _ _ 0 _ (by simp) (by omega) (by omega)]
  simp only [Nat.zero_div, List.drop_zero]
  obtain ⟨j, n, hfin⟩ := keys_fold rs hrs K (K.map (cache_get c)) hlistslen hlistsne
    (K.map (cache_get c)) 0 (decide (0 < ((K.map (cache_get c)).map (fun l => l.length * rs)).length)) acc
    (List.drop_zero _) (by omega)
  rw [hfin]
  simp only [List.drop_zero, zip_self_map, List.map_map]
  rfl

theorem pages_fold_exact (rs bl H : ℕ) (hrs : 0 < rs) (hbl : 0 < bl)
    (hmod : bl % rs = 0) (c : rcache) (t : totmap) (hnn : cache_nonnil c) :
    ∀ (L : List ℕ), (∀ p ∈ L, partition_keys H c p ≠ []) →
    ∀ (acc : rcache × totmap × Bool),
    ((L.map (fun p => write_page rs c t (partition_keys H c p))).foldl (fun acc pg =>
        let q := read_page_model rs bl pg acc.1 acc.2.1
        (q.1, q.2.1, acc.2.2 && q.2.2)) acc).1
      = push_all ((L.map (fun p => ((partition_keys H c p).map
          (fun k => (cache_get c k).map (fun r => (k, r)))).flatten)).flatten) acc.1 := by
  intro L
  induction L with
  | nil => intro _ acc; simp [push_all]
  | cons p L' ih =>
    intro hcond acc
    rw [List.map_cons, List.foldl_cons]
    rw [ih (fun q hq => hcond q (List.mem_cons_of_mem _ hq)) _]
    have hpage := page_read_exact rs bl hrs hbl hmod c t (partition_keys H c p)
      (hcond p (List.mem_cons_self _ _))
      (fun k hk => ((mem_partition_keys H c p k).mp hk).1) hnn acc.1 acc.2.1
    dsimp only
    rw [hpage, List.map_cons, List.flatten_cons, push_all_append]

theorem partition_keys_ne_nil (H : ℕ) (c : rcache) (p : ℕ)
    (hp : p ∈ cache_partitions H c) : partition_keys H c p ≠ [] := by
  unfold cache_partitions at hp
  rw [List.mem_dedup, (List.perm_insertionSort _ _).mem_iff] at hp
  obtain ⟨e, he, hpe⟩ := List.mem_map.mp hp
  have hin : e.1 ∈ partition_keys H c p := (mem_partition_keys H c p e.1).mpr
    ⟨List.mem_map_of_mem _ he, hpe⟩
  exact List.ne_nil_of_mem hin

theorem pairs_filter_not_mem (c : rcache) (k : ℕ) :
    ∀ (K : List ℕ), k ∉ K →
    ((K.map (fun k' => (cache_get c k').map (fun r => (k', r)))).flatten.filter
      (fun e => e.1 == k)) = [] := by
  intro K
  induction K with
  | nil => intro _; rfl
  | cons k0 K' ih =>
    intro hk
    simp only [List.map_cons, List.flatten_cons, List.filter_append]
    rw [ih (fun h => hk (List.mem_cons_of_mem _ h)), List.append_nil]
    have hk0 : k0 ≠ k := fun h => hk (h ▸ List.mem_cons_self _ _)
    refine List.filter_eq_nil.mpr ?_
    intro a ha
    obtain ⟨r, hr, rfl⟩ := List.mem_map.mp ha
    simp [hk0]

theorem pairs_filter_mem (c : rcache) (k : ℕ) :
    ∀ (K : List ℕ), K.Nodup → k ∈ K →
    ((K.map (fun k' => (cache_get c k').map (fun r => (k', r)))).flatten.filter
      (fun e => e.1 == k)) = (cache_get c k).map (fun r => (k, r)) := by
  intro K
  induction K with
  | nil => intro _ h; simp at h
  | cons k0 K' ih =>
    intro hnd hk
    simp only [List.map_cons, List.flatten_cons, List.filter_append]
    by_cases h0 : k0 = k
    · subst h0
      rw [pairs_filter_not_mem c k0 K' (List.nodup_cons.mp hnd).1, List.append_nil]
      have hall : ∀ a ∈ (cache_get c k0).map (fun r => (k0, r)), (a.1 == k0) = true := by
        intro a ha
        obtain ⟨r, hr, rfl⟩ := List.mem_map.mp ha
        simp
      rw [List.filter_eq_self.mpr hall]
    · have hkK' : k ∈ K' := (List.mem_cons.mp hk).resolve_left (fun h => h0 h.symm)
      rw [ih (List.nodup_cons.mp hnd).2 hkK']
      have hnilf : (((cache_get c k0).map (fun r => (k0, r))).filter
          (fun e => e.1 == k)) = [] := by
        refine List.filter_eq_nil.mpr ?_
        intro a ha
        obtain ⟨r, hr, rfl⟩ := List.mem_map.mp ha
        simp [h0]
      rw [hnilf, List.nil_append]

theorem partitions_filter (H : ℕ) (c : rcache) (k : ℕ) (hwf : cache_wf c) :
    ∀ (L : List ℕ), L.Nodup →
    ((L.map (fun p => ((partition_keys H c p).map
        (fun k' => (cache_get c k').map (fun r => (k', r)))).flatten)).flatten.filter
      (fun e => e.1 == k))
      = if page_partition H k ∈ L ∧ k ∈ c.map Prod.fst
        then (cache_get c k).map (fun r => (k, r)) else [] := by
  have hnodup : (c.map Prod.fst).Nodup :=
    List.Pairwise.imp (fun h => Nat.ne_of_lt h) hwf
  intro L
  induction L with
  | nil =>
    intro _
    rw [if_neg (fun hc => by simp at hc)]
    rfl
  | cons p L' ih =>
    intro hnd
    simp only [List.map_cons, List.flatten_cons, List.filter_append]
    rw [ih (List.nodup_cons.mp hnd).2]
    have hKnd : (partition_keys H c p).Nodup := List.Nodup.filter _ hnodup
    by_cases hmem : k ∈ c.map Prod.fst
    · by_cases hpp : page_partition H k = p
      · have hkK : k ∈ partition_keys H c p := (mem_partition_keys H c p k).mpr ⟨hmem, hpp⟩
        rw [pairs_filter_mem c k _ hKnd hkK]
        have hnotL' : page_partition H k ∉ L' := by
          rw [hpp]
          exact (List.nodup_cons.mp hnd).1
        rw [if_neg (fun hc => hnotL' hc.1), List.append_nil,
          if_pos ⟨by rw [hpp]; exact List.mem_cons_self _ _, hmem⟩]
      · have hkK : k ∉ partition_keys H c p :=
          fun hc => hpp ((mem_partition_keys H c p k).mp hc).2
        rw [pairs_filter_not_mem c k _ hkK, List.nil_append]
        by_cases hL' : page_partition H k ∈ L'
        · rw [if_pos ⟨hL', hmem⟩, if_pos ⟨List.mem_cons_of_mem _ hL', hmem⟩]
        · rw [if_neg (fun hc => hL' hc.1), if_neg (fun hc => by
            rcases List.mem_cons.mp hc.1 with h | h
            · exact hpp h
            · exact hL' h)]
    · have hkK : k ∉ partition_keys H c p :=
        fun hc => hmem ((mem_partition_keys H c p k).mp hc).1
      rw [pairs_filter_not_mem c k _ hkK, List.nil_append,
        if_neg (fun hc => hmem hc.2), if_neg (fun hc => hmem hc.2)]

theorem mem_map_fst_iff_filter (k : ℕ) :
    ∀ (L : List (ℕ × data_record)),
    k ∈ L.map Prod.fst ↔ L.filter (fun e => e.1 == k) ≠ [] := by
  intro L
  induction L with
  | nil => simp
  | cons e L' ih =>
    obtain ⟨k0, r⟩ := e
    simp only [List.map_cons, List.mem_cons, List.filter_cons]
    by_cases h : k0 = k
    · subst h
      simp
    · have h' : k ≠ k0 := fun hh => h hh.symm
      simp only [h', false_or]
      have hb : ((k0, r).1 == k) = false := by simp [h]
      rw [hb]
      simp only [Bool.false_eq_true, if_false]
      exact ih

theorem save_file_roundtrip (rs bl H : ℕ) (hrs : 0 < rs) (hbl : 0 < bl)
    (hmod : bl % rs = 0) (c : rcache) (t : totmap) (hwf : cache_wf c)
    (hnn : cache_nonnil c) :
    (read_data_to_cache rs bl false (save_file rs H c t)).1 = c := by
  have hread : (read_data_to_cache rs bl false (save_file rs H c t)).1
      = push_all (((cache_partitions H c).map (fun p => ((partition_keys H c p).map
          (fun k => (cache_get c k).map (fun r => (k, r)))).flatten)).flatten) [] := by
    unfold read_data_to_cache
    rw [if_neg (by simp)]
    unfold save_file
    exact pages_fold_exact rs bl H hrs hbl hmod c t hnn (cache_partitions H c)
      (fun p hp => partition_keys_ne_nil H c p hp) ([], [], true)
  have hLnd : (cache_partitions H c).Nodup := List.nodup_dedup _
  have hfilter := fun k => partitions_filter H c k hwf (cache_partitions H c) hLnd
  rw [hread]
  have hwfnil : cache_wf ([] : rcache) := by simp [cache_wf]
  refine cache_ext _ c (push_all_wf _ _ hwfnil) hwf ?_ ?_
  · intro k
    rw [push_all_mem]
    simp only [List.map_nil, List.not_mem_nil, false_or]
    rw [mem_map_fst_iff_filter, hfilter k]
    constructor
    · intro hne
      by_cases hmem : k ∈ c.map Prod.fst
      · exact hmem
      · rw [if_neg (fun hc => hmem hc.2)] at hne
        exact absurd rfl hne
    · intro hmem
      rw [if_pos ⟨mem_cache_partitions H c k hmem, hmem⟩]
      intro hmap
      exact mem_get_ne_nil c k hmem hnn (List.map_eq_nil.mp hmap)
  · intro k
    rw [push_all_get k _ _ hwfnil, hfilter k]
    by_cases hmem : k ∈ c.map Prod.fst
    · rw [if_pos ⟨mem_cache_partitions H c k hmem, hmem⟩]
      simp [cache_get]
    · rw [if_neg (fun hc => hmem hc.2), cache_get_not_mem c k hmem]
      rfl

theorem srl_ne_nil (P S : ℕ) (hP : 1 ≤ P) (hS : 1 ≤ S) (l : List data_record)
    (hl : l ≠ []) : (sort_record_list P S l).1 ≠ [] := by
  have hsortne : List.insertionSort rec_le l ≠ [] := by
    intro hcon
    have := List.perm_insertionSort rec_le l
    rw [hcon] at this
    exact hl this.nil_eq.symm
  have hsummed : coalesce (List.insertionSort rec_le l) ≠ [] :=
    coalesce_ne_nil _ hsortne
  have hsumpos : 0 < (coalesce (List.insertionSort rec_le l)).length :=
    List.length_pos.mpr hsummed
  unfold sort_record_list
  dsimp only
  split_ifs with hbr hcap
  · intro hcon
    have hlen := congrArg List.length hcon
    rw [order_sections_length, List.length_take, List.length_insertionSort,
      List.length_nil] at hlen
    rcases Nat.min_eq_zero_iff.mp hlen with h0 | h0
    · have := Nat.mul_pos hP hS
      omega
    · omega
  · intro hcon
    have hlen := congrArg List.length hcon
    rw [order_sections_length, List.length_insertionSort, List.length_nil] at hlen
    omega
  · exact hsummed

theorem sort_cache_entries (P S : ℕ) :
    ∀ (c : rcache) (t : totmap),
    (sort_cache P S c t).1 = c.map (fun e => (e.1, (sort_record_list P S e.2).1)) := by
  intro c
  induction c with
  | nil => intro t; rfl
  | cons e rest ih =>
    intro t
    obtain ⟨k, l⟩ := e
    simp only [sort_cache, List.map_cons]
    rw [ih]

theorem sort_cache_nonnil (P S : ℕ) (hP : 1 ≤ P) (hS : 1 ≤ S) (c : rcache)
    (t : totmap) (hnn : cache_nonnil c) : cache_nonnil (sort_cache P S c t).1 := by
  rw [sort_cache_entries]
  intro e he
  obtain ⟨e0, he0, rfl⟩ := List.mem_map.mp he
  exact srl_ne_nil P S hP hS e0.2 (hnn e0 he0)

theorem sort_cache_idem_fst (P S : ℕ) (hP : 1 ≤ P) (hS : 1 ≤ S)
    (c : rcache) (t t' : totmap) :
    (sort_cache P S (sort_cache P S c t).1 t').1 = (sort_cache P S c t).1 := by
  rw [sort_cache_entries P S (sort_cache P S c t).1 t', sort_cache_entries P S c t,
    List.map_map]
  refine List.map_congr_left ?_
  intro e he
  have hfst := congrArg Prod.fst (srl_idem P S hP hS e.2)
  show (e.1, (sort_record_list P S (sort_record_list P S e.2).1).1)
      = (e.1, (sort_record_list P S e.2).1)
  rw [hfst]

theorem sorted_tot_len (P S : ℕ) (hP : 1 ≤ P) (hS : 1 ≤ S) (c : rcache)
    (t t' : totmap) (hwf : cache_wf c) (k : ℕ) (hk : k ∈ c.map Prod.fst) :
    tot_get (sort_cache P S (sort_cache P S c t).1 t').2 k
      = (cache_get (sort_cache P S c t).1 k).length := by
  have hwf2 : cache_wf (sort_cache P S c t).1 := by
    unfold cache_wf
    rw [sort_cache_map_fst]
    exact hwf
  have hk2 : k ∈ (sort_cache P S c t).1.map Prod.fst := by
    rw [sort_cache_map_fst]
    exact hk
  rw [sort_cache_tot P S _ _ _ hwf2 hk2, sort_cache_get P S c t k hk]
  exact congrArg Prod.snd (srl_idem P S hP hS (cache_get c k))

theorem write_page_retotal (rs : ℕ) (hrs : 0 < rs) (c : rcache) (t t' : totmap)
    (K : List ℕ) (hsub : ∀ k ∈ K, k ∈ c.map Prod.fst)
    (htot : ∀ k ∈ c.map Prod.fst, tot_get t' k = (cache_get c k).length) :
    write_page rs c t' K
      = { write_page rs c t K with
          totals := (write_page rs c t K).lens.map (· / rs) } := by
  unfold write_page
  dsimp only
  have htotals : K.map (tot_get t')
      = (K.map (fun k => (cache_get c k).length * rs)).map (· / rs) := by
    rw [List.map_map]
    refine List.map_congr_left ?_
    intro k hk
    show tot_get t' k = (cache_get c k).length * rs / rs
    rw [htot k (hsub k hk)]
    exact (Nat.mul_div_cancel _ hrs).symm
  rw [htotals]

theorem save_file_retotal (rs H : ℕ) (hrs : 0 < rs) (c : rcache) (t t' : totmap)
    (htot : ∀ k ∈ c.map Prod.fst, tot_get t' k = (cache_get c k).length) :
    save_file rs H c t' = (save_file rs H c t).map
      (fun pg => { pg with totals := pg.lens.map (· / rs) }) := by
  unfold save_file
  rw [List.map_map]
  refine List.map_congr_left ?_
  intro p hp
  exact write_page_retotal rs hrs c t t' (partition_keys H c p)
    (fun k hk => ((mem_partition_keys H c p k).mp hk).1) htot

theorem merge_twice_data (rs bl H P S : ℕ) (hrs : 0 < rs) (hbl : 0 < bl)
    (hmod : bl % rs = 0) (hP : 1 ≤ P) (hS : 1 ≤ S) (s : shard_state) :
    (merge rs bl H P S false false false (merge rs bl H P S false false false s)).data
      = (merge rs bl H P S false false false s).data.map
          (fun pg => { pg with totals := pg.lens.map (· / rs) }) := by
  have hwf1 : cache_wf (read_append_cache rs bl false false false s).1 :=
    read_append_cache_wf rs bl false false false s
  have hnn1 : cache_nonnil (read_append_cache rs bl false false false s).1 :=
    read_append_cache_nonnil rs bl false false false s
  have hwf2 : cache_wf (sort_cache P S (read_append_cache rs bl false false false s).1
      (read_append_cache rs bl false false false s).2).1 := by
    unfold cache_wf
    rw [sort_cache_map_fst]
    exact hwf1
  have hnn2 : cache_nonnil (sort_cache P S (read_append_cache rs bl false false false s).1
      (read_append_cache rs bl false false false s).2).1 :=
    sort_cache_nonnil P S hP hS _ _ hnn1
  have hrac1 : (read_append_cache rs bl false false false
        (merge rs bl H P S false false false s)).1
      = (sort_cache P S (read_append_cache rs bl false false false s).1
          (read_append_cache rs bl false false false s).2).1 := by
    have hstep : (read_append_cache rs bl false false false
          (merge rs bl H P S false false false s)).1
        = (read_data_to_cache rs bl false
            (merge rs bl H P S false false false s).data).1 := rfl
    rw [hstep, merge_data_eq]
    exact save_file_roundtrip rs bl H hrs hbl hmod _ _ hwf2 hnn2
  rw [merge_data_eq rs bl H P S false false false
      (merge rs bl H P S false false false s), hrac1,
    sort_cache_idem_fst P S hP hS _ _ _,
    merge_data_eq rs bl H P S false false false s]
  exact save_file_retotal rs H hrs _ _ _
    (fun k hk => sorted_tot_len P S hP hS _ _ _ hwf1 k
      (by rwa [sort_cache_map_fst] at hk))

theorem C3_merge_idempotent_counterexample :
    (merge 12 24 1 1 1 false false false
        (merge 12 24 1 1 1 false false false c3_s0)).data
      ≠ (merge 12 24 1 1 1 false false false c3_s0).data := by
  decide

/-- **C3.**  The claim that two consecutive `merge()` calls with no
intervening `add` produce a byte-identical `.data` file — in particular
identical per-key total-results values — is refuted for states whose
posting lists get truncated (see the counterexample): the first merge
stores the pre-truncation unique count as `total_results`, while the
second merge recomputes every total as the stored list's length.  Amended:
the second merge's `.data` equals the first merge's with every page's
totals array replaced by `lens[i] / sizeof(record)` (the stored list
lengths); consequently the files are byte-identical exactly when the first
merge's totals already coincide with those lengths, which holds in
particular for states where no key was truncated. -/
theorem C3_merge_idempotent (rs bl H P S : ℕ) (hrs : 0 < rs) (hbl : 0 < bl)
    (hmod : bl % rs = 0) (hP : 1 ≤ P) (hS : 1 ≤ S) (s : shard_state) :
    (merge rs bl H P S false false false
        (merge rs bl H P S false false false s)).data
      = (merge rs bl H P S false false false s).data.map
          (fun pg => { pg with totals := pg.lens.map (· / rs) })
    ∧ ((∀ pg ∈ (merge rs bl H P S false false false s).data,
          pg.totals = pg.lens.map (· / rs)) →
        (merge rs bl H P S false false false
            (merge rs bl H P S false false false s)).data
          = (merge rs bl H P S false false false s).data) := by
  refine ⟨merge_twice_data rs bl H P S hrs hbl hmod hP hS s, ?_⟩
  intro hpre
  rw [merge_twice_data rs bl H P S hrs hbl hmod hP hS s]
  have hid : ∀ pg ∈ (merge rs bl H P S false false false s).data,
      ({ pg with totals := pg.lens.map (· / rs) } : page_t) = pg := by
    intro pg hpg
    rw [← hpre pg hpg]
  exact (List.map_congr_left hid).trans (List.map_id _)

theorem C3_merge_idempotent_witness :
    (merge 12 24 1 1 1 false false false
        (merge 12 24 1 1 1 false false false c3_s0)).data
      = (merge 12 24 1 1 1 false false false c3_s0).data.map
          (fun pg => { pg with totals := pg.lens.map (· / 12) })
    ∧ ((∀ pg ∈ (merge 12 24 1 1 1 false false false c3_s0).data,
          pg.totals = pg.lens.map (· / 12)) →
        (merge 12 24 1 1 1 false false false
            (merge 12 24 1 1 1 false false false c3_s0)).data
          = (merge 12 24 1 1 1 false false false c3_s0).data) :=
  C3_merge_idempotent 12 24 1 1 1 (by decide) (by decide) (by decide)
    (by decide) (by decide) c3_s0
